import Mathlib

/-!
Verification of the postgres-spreadsheet-view core: a shallow embedding of
the edit-handle codec (`handles.go`), the primary-key injection rewriter
(`rewrite_pks.go` / `injectPKsInSelect`), the provenance resolver's column
resolution (`resolver.go` / `resolveColumn`), the row serializer
(`SerializeEditableRows` / `computeEditHandle`), the WAL change consumer
(`consumer.go` / `OnMessage`) and the partial-refresh engine (`refresh.go`).

Go strings are modelled as Lean `String`; the byte string fed to base64 is
modelled as the list of character codes (exact for single-byte characters).
Go maps are modelled as association lists in insertion order; `map[...]`
iteration that the source makes deterministic by sorting keys is modelled by
an explicit sort.  Dynamic (`any`) payload values are modelled as `String`.
-/

namespace PSV

/-- Model of Go `strings.SplitN(s, sep, 2)` at the character-list level:
split at the first occurrence of `sep`, or `none` when `sep` is absent. -/
def breakAt (sep : Char) : List Char → Option (List Char × List Char)
  | [] => none
  | c :: cs =>
    if c = sep then some ([], cs)
    else
      match breakAt sep cs with
      | some (l, r) => some (c :: l, r)
      | none => none

/-- Model of Go `strings.Split(s, sep)` for a one-character separator. -/
def splitAll (sep : Char) : List Char → List (List Char)
  | [] => [[]]
  | c :: cs =>
    let rest := splitAll sep cs
    if c = sep then [] :: rest
    else
      match rest with
      | r :: rs => (c :: r) :: rs
      | [] => [[c]]

/-- Model of Go `strings.Join(xs, ",")` (specialised to the one separator the
codec uses). -/
def joinComma : List String → String
  | [] => ""
  | [s] => s
  | s :: rest => s ++ "," ++ joinComma rest

/-- Model of Go `strings.HasPrefix` (at the character level, so that the
kernel can evaluate it on concrete inputs). -/
def strStartsWith (s pre : String) : Bool := pre.data.isPrefixOf s.data

/-- Model of Go `strings.HasSuffix`. -/
def strEndsWith (s suf : String) : Bool := suf.data.isSuffixOf s.data

/-- Model of Go `strings.ReplaceAll(s, ".", "_")` (the only replacement the
source performs; for a one-character pattern it is a per-character map). -/
def replaceDot (s : String) : String :=
  String.mk (s.data.map (fun c => if c = '.' then '_' else c))

/-- The text after the last `.` of `s` (Go `s[LastIndexByte(s, '.')+1:]`),
or `s` itself when there is no dot. -/
def afterLastDot (s : String) : String :=
  String.mk ((splitAll '.' s.data).getLastD s.data)

/-- Byte-wise (character-code) lexicographic order, the order
`sort.Strings` uses on our string model. -/
def charListLe : List Char → List Char → Bool
  | [], _ => true
  | _ :: _, [] => false
  | a :: as, b :: bs =>
    if a.toNat < b.toNat then true
    else if b.toNat < a.toNat then false
    else charListLe as bs

/-- String comparison for the deterministic alias order. -/
def strLeB (a b : String) : Bool := charListLe a.data b.data

/-- Insert into a sorted list. -/
def insertSorted (le : α → α → Bool) (a : α) : List α → List α
  | [] => [a]
  | b :: bs => if le a b then a :: b :: bs else b :: insertSorted le a bs

/-- Insertion sort (models Go `sort.Strings`/`sort.Slice`; the rewriter
sorts distinct alias keys, for which any correct sort yields the same
sequence). -/
def insertionSort (le : α → α → Bool) (l : List α) : List α :=
  l.foldr (insertSorted le) []

/-- Model of Go `strings.TrimSpace`: drop leading and trailing whitespace. -/
def trimChars (cs : List Char) : List Char :=
  ((cs.dropWhile Char.isWhitespace).reverse.dropWhile Char.isWhitespace).reverse

/-- Association-list lookup with decidable string equality (model of Go map
indexing). -/
def alookup (k : String) : List (String × α) → Option α
  | [] => none
  | (k', v) :: rest => if k' = k then some v else alookup k rest

/-- Insert-or-overwrite into an association list (model of Go map
assignment, which keeps insertion order for fresh keys). -/
def upsert (m : List (String × String)) (k v : String) : List (String × String) :=
  match m with
  | [] => [(k, v)]
  | (k', v') :: rest => if k' = k then (k, v) :: rest else (k', v') :: upsert rest k v

/-! ### Base64 (Go `base64.RawURLEncoding`) -/

/-- The URL-safe base64 alphabet. -/
def b64Alphabet : List Char :=
  "ABCDEFGHIJKLMNOPQRSTUVWXYZabcdefghijklmnopqrstuvwxyz0123456789-_".data

/-- Character for a 6-bit group. -/
def b64Char (n : Nat) : Char := (b64Alphabet.getD n 'A')

/-- Inverse of `b64Char`: position of a character in the alphabet. -/
def b64Index (c : Char) : Option Nat := b64Alphabet.findIdx? (· = c)

/-- Unpadded base64 encoding of a byte list (bytes as `Nat < 256`),
three bytes at a time as in Go's encoder. -/
def encodeB64Chunks : List Nat → List Char
  | b1 :: b2 :: b3 :: rest =>
    b64Char (b1 / 4) :: b64Char ((b1 % 4) * 16 + b2 / 16) ::
    b64Char ((b2 % 16) * 4 + b3 / 64) :: b64Char (b3 % 64) :: encodeB64Chunks rest
  | [b1, b2] =>
    [b64Char (b1 / 4), b64Char ((b1 % 4) * 16 + b2 / 16), b64Char ((b2 % 16) * 4)]
  | [b1] => [b64Char (b1 / 4), b64Char ((b1 % 4) * 16)]
  | [] => []

/-- Unpadded base64 decoding; `none` on an alphabet-foreign character or an
impossible length (1 mod 4), as in Go's raw decoder. -/
def decodeB64Chunks : List Char → Option (List Nat)
  | x1 :: x2 :: x3 :: x4 :: rest => do
    let a ← b64Index x1
    let b ← b64Index x2
    let c ← b64Index x3
    let d ← b64Index x4
    let tail ← decodeB64Chunks rest
    pure ([a * 4 + b / 16, (b % 16) * 16 + c / 4, (c % 4) * 64 + d] ++ tail)
  | [x1, x2, x3] => do
    let a ← b64Index x1
    let b ← b64Index x2
    let c ← b64Index x3
    pure [a * 4 + b / 16, (b % 16) * 16 + c / 4]
  | [x1, x2] => do
    let a ← b64Index x1
    let b ← b64Index x2
    pure [a * 4 + b / 16]
  | [_] => none
  | [] => pure []

/-- Byte model of a Go string: the list of character codes. -/
def strToBytes (s : String) : List Nat := s.data.map Char.toNat

/-- Inverse byte-to-string conversion. -/
def bytesToChars (bs : List Nat) : List Char := bs.map Char.ofNat

/-! ### Edit-handle codec (`server/internal/common/handles.go`) -/

/-- `EncodeHandle` from `handles.go`: base64 of
`"schema.table|c1=v1,c2=v2,…"`.  Values are taken already rendered
(`fmt.Sprintf("%v", …)` output). -/
def EncodeHandle (schema table : String) (pkCols pkVals : List String) : String :=
  let kvPairs := List.zipWith (fun c v => c ++ "=" ++ v) pkCols pkVals
  let raw := schema ++ "." ++ table ++ "|" ++ joinComma kvPairs
  String.mk (encodeB64Chunks (strToBytes raw))

/-- One `k=v` fragment of `DecodeHandle`'s loop: skip empty or `=`-less
fragments, else record the trimmed pair. -/
def decodeKVStep (acc : List (String × String)) (kv : List Char) :
    List (String × String) :=
  if kv = [] then acc
  else
    match breakAt '=' kv with
    | none => acc
    | some (k, v) => upsert acc (String.mk (trimChars k)) (String.mk (trimChars v))

/-- `DecodeHandle` from `handles.go`: base64-decode, split `schema.table`
from the key part at the first `|`, split schema from table at the first
`.`, then parse `k=v` pairs separated by `,`, trimming whitespace and
skipping empty or `=`-less fragments. -/
def DecodeHandle (h : String) :
    Except String (String × String × List (String × String)) :=
  match decodeB64Chunks h.data with
  | none => .error "invalid base64"
  | some bs =>
    let s := bytesToChars bs
    match breakAt '|' s with
    | none => .error "malformed handle"
    | some (st, keyPart) =>
      match breakAt '.' st with
      | none => .error "malformed table path"
      | some (sch, tbl) =>
        let pk := (splitAll ',' keyPart).foldl decodeKVStep []
        .ok (String.mk sch, String.mk tbl, pk)

/-! ### PK-injection rewriter (`pg_lineage` `RewriteSelectInjectPKs` /
`injectPKsInSelect`, richcatalog generation)

The rewriter works scope by scope.  We embed the per-select transformation
(steps 3b and 4 of `injectPKsInSelect`): the visible-alias scope collected
by `collectAliasesAndRecurse` is a parameter, with derived (subselect)
entries marked by the `__derived__:` sentinel exactly as in the source. -/

/-- The catalog interface used by the rewriter and resolver
(`Columns`/`PrimaryKeys` both return `(list, ok)`). -/
structure Catalog where
  columns : String → Option (List String)
  primaryKeys : String → Option (List String)

/-- A column reference (`pg_query.ColumnRef` restricted to plain string
fields, which is all the rewriter ever builds). -/
structure ColumnRef where
  fields : List String
deriving DecidableEq, Repr

/-- A projection item (`pg_query.ResTarget`): output name (possibly empty)
and value. -/
structure ResTarget where
  name : String
  val : ColumnRef
deriving DecidableEq, Repr

/-- A GROUP BY item: either a column reference (what the rewriter appends)
or some other expression, left opaque. -/
inductive GroupNode
  | colRef (cr : ColumnRef)
  | other (n : Nat)
deriving DecidableEq, Repr

/-- One visible alias of a select's FROM scope, as collected by
`collectAliasesAndRecurse`: the visible alias, the schema-qualified table
(or the `__derived__:` sentinel value), and whether the alias was written
explicitly. -/
structure FromEntry where
  vis : String
  fq : String
  isExplicit : Bool
deriving DecidableEq, Repr

/-- The mutable part of a select statement that `injectPKsInSelect`
touches. -/
structure SelectStmt where
  targetList : List ResTarget
  groupClause : List GroupNode
deriving DecidableEq, Repr

/-- `displayAlias` from the rewriter: explicit alias (dots replaced),
else the bare relname (text after the last dot of the qualified name). -/
def displayAlias (visibleAlias fqTable : String) (isExplicit : Bool) : String :=
  if isExplicit then replaceDot visibleAlias
  else replaceDot (afterLastDot fqTable)

/-- Whether a scope entry is the derived-relation sentinel. -/
def FromEntry.isDerived (e : FromEntry) : Bool := strStartsWith e.fq "__derived__:"

/-- `baseTableCount`: non-derived entries in a scope. -/
def baseTableCount (scope : List FromEntry) : Nat :=
  (scope.filter (fun e => !e.isDerived)).length

/-- `buildColRefForScope`: unqualified `col` when the scope has a single
base table and the alias is implicit, else `visibleAlias.col`. -/
def buildColRefForScope (visibleAlias col : String) (scopeBaseCount : Nat)
    (isExplicit : Bool) : ColumnRef :=
  if !isExplicit && scopeBaseCount = 1 then ⟨[col]⟩ else ⟨[visibleAlias, col]⟩

/-- `makeResTargetForScope`: a projection item for an injected PK column. -/
def makeResTargetForScope (visibleAlias col targetName : String)
    (scopeBaseCount : Nat) (isExplicit : Bool) : ResTarget :=
  ⟨targetName, buildColRefForScope visibleAlias col scopeBaseCount isExplicit⟩

/-- The injected target name `_pk_<safeAlias>_<pk>`. -/
def mkPkName (safeAlias pk : String) : String := "_pk_" ++ safeAlias ++ "_" ++ pk

/-- Scope iteration order: the source sorts the alias map's keys
(`sortedKeys`) for determinism. -/
def sortByAlias (scope : List FromEntry) : List FromEntry :=
  insertionSort (fun a b => strLeB a.vis b.vis) scope

/-- Append a value to a key's slice in the alias→injected-names map
(Go `adds[safeAlias] = append(adds[safeAlias], targetName)`). -/
def addsAppend (adds : List (String × List String)) (k v : String) :
    List (String × List String) :=
  match adds with
  | [] => [(k, [v])]
  | (k', vs) :: rest =>
    if k' = k then (k, vs ++ [v]) :: rest else (k', vs) :: addsAppend rest k v

/-- Read a key's slice out of the alias→injected-names map (missing keys
read as Go's nil slice). -/
def addsGet (adds : List (String × List String)) (k : String) : List String :=
  (alookup k adds).getD []

/-- State threaded through step 4 of `injectPKsInSelect`: the target list,
the `existingNames` set and the `adds` map. -/
structure RewriteState where
  targetList : List ResTarget
  existing : List String
  adds : List (String × List String)
deriving Repr

/-- `existingNames`: names of the targets that carry a non-empty name. -/
def initialExisting (targets : List ResTarget) : List String :=
  (targets.filter (fun rt => rt.name ≠ "")).map (·.name)

/-- Inject one PK column for one alias: skip on a name collision, else
append the target, record the name, and extend the adds map. -/
def injectPK (safeAlias visibleAlias : String) (scopeBaseCount : Nat)
    (isExplicit : Bool) (st : RewriteState) (pk : String) : RewriteState :=
  let targetName := mkPkName safeAlias pk
  if targetName ∈ st.existing then st
  else
    { targetList := st.targetList ++
        [makeResTargetForScope visibleAlias pk targetName scopeBaseCount isExplicit]
      existing := st.existing ++ [targetName]
      adds := addsAppend st.adds safeAlias targetName }

/-- Inject all PK columns of one scope entry (skipping derived entries and
tables without catalog PKs), in catalog PK order. -/
def injectAlias (cat : Catalog) (scopeBaseCount : Nat) (st : RewriteState)
    (e : FromEntry) : RewriteState :=
  if e.isDerived then st
  else
    match cat.primaryKeys e.fq with
    | none => st
    | some pks =>
      if pks.isEmpty then st
      else
        let safeAlias := displayAlias e.vis e.fq e.isExplicit
        pks.foldl (injectPK safeAlias e.vis scopeBaseCount e.isExplicit) st

/-- Step 4 of `injectPKsInSelect`: walk the scope in alias-sorted order and
append `_pk_*` projections. -/
def injectTargets (cat : Catalog) (scope : List FromEntry)
    (targets : List ResTarget) : RewriteState :=
  (sortByAlias scope).foldl (injectAlias cat (baseTableCount scope))
    ⟨targets, initialExisting targets, []⟩

/-- The PK references step 3b appends to a non-empty GROUP BY list, in the
same alias-sorted order. -/
def groupRefsForScope (cat : Catalog) (scope : List FromEntry) : List ColumnRef :=
  (sortByAlias scope).flatMap (fun e =>
    if e.isDerived then []
    else
      match cat.primaryKeys e.fq with
      | none => []
      | some pks =>
        if pks.isEmpty then []
        else pks.map (fun pk =>
          buildColRefForScope e.vis pk (baseTableCount scope) e.isExplicit))

/-- Step 3b of `injectPKsInSelect`: extend a non-empty GROUP BY list with
the PK column references. -/
def injectGroupClause (cat : Catalog) (scope : List FromEntry)
    (groupClause : List GroupNode) : List GroupNode :=
  if groupClause.isEmpty then groupClause
  else groupClause ++ (groupRefsForScope cat scope).map GroupNode.colRef

/-- The per-select mutation of `injectPKsInSelect` (steps 3b and 4) given
the collected scope; returns the mutated select and this scope's
contribution to the `adds` map.  With an empty scope the select is
returned untouched (the source's early return for `SELECT 1`). -/
def injectPKsInSelect (cat : Catalog) (scope : List FromEntry)
    (sel : SelectStmt) : SelectStmt × List (String × List String) :=
  if scope.isEmpty then (sel, [])
  else
    let st := injectTargets cat scope sel.targetList
    (⟨st.targetList, injectGroupClause cat scope sel.groupClause⟩, st.adds)

/-! ### Top-level statement dispatch

`RewriteSelectInjectPKs` and `ResolveProvenance` first parse the SQL text;
the third-party parser is modelled as an oracle argument classifying the
first statement. -/

/-- Outcome of parsing the first top-level statement. -/
inductive ParsedStmt
  | selectStmt (scope : List FromEntry) (sel : SelectStmt)
  | nonSelect

/-- Top level of `RewriteSelectInjectPKs` (part_002, richcatalog
generation): a parse failure is an error, a non-select parse returns the
input SQL unchanged with an empty map, and a select is rewritten and
deparsed (deparsing modelled as an oracle). -/
def RewriteSelectInjectPKs (cat : Catalog) (deparse : SelectStmt → String)
    (sql : String) (parsed : Option ParsedStmt) :
    Except String (String × List (String × List String)) :=
  match parsed with
  | none => .error "parse"
  | some .nonSelect => .ok (sql, [])
  | some (.selectStmt scope sel) =>
    let r := injectPKsInSelect cat scope sel
    .ok (deparse r.1, r.2)

/-- A provenance map: output label → list of `table.column` sources. -/
abbrev Provenance := List (String × List String)

/-- Top level of `ResolveProvenance` (part_006): parse failure and
non-select are rejected; the select analysis is an oracle parameter. -/
def ResolveProvenance
    (analyze : List FromEntry → SelectStmt → Except String Provenance)
    (parsed : Option ParsedStmt) : Except String Provenance :=
  match parsed with
  | none => .error "parse error"
  | some .nonSelect => .error "only SELECT supported"
  | some (.selectStmt scope sel) => analyze scope sel

/-- The order of operations in `handleEditableQuery` (handlers.go): resolve
provenance of the original SQL first, only then rewrite.  A provenance
error aborts the request before any rewrite output exists. -/
def handleEditableQuery (resolve : String → Except String Provenance)
    (rewrite : String → Except String (String × List (String × List String)))
    (sql : String) :
    Except String (Provenance × String × List (String × List String)) := do
  let provOrig ← resolve sql
  let rw ← rewrite sql
  pure (provOrig, rw.1, rw.2)

/-! ### Column resolution (`resolver.go` / part_006 `resolveColumn`) -/

/-- Resolver context: the FROM scope (visible alias → table, with derived
aliases bound to their own name) and the derived-provenance map `dp`
(derived alias → output column → sources). -/
structure Ctx where
  scope : List (String × String)
  dp : List (String × List (String × List String))
  cat : Catalog

/-- `hasColumn`: catalog lookup, falling back to the name after the first
dot when the qualified lookup misses. -/
def hasColumn (cat : Catalog) (tbl col : String) : Bool :=
  match cat.columns tbl with
  | some cols => decide (col ∈ cols)
  | none =>
    match breakAt '.' tbl.data with
    | some (_, rest) =>
      match cat.columns (String.mk rest) with
      | some cols => decide (col ∈ cols)
      | none => false
    | none => false

/-- First source recorded for `col` under derived key `k`, when non-empty
(the `c.dp[k][col]` probes of `resolveColumn`). -/
def dpSrc (dp : List (String × List (String × List String))) (k col : String) :
    Option String :=
  match alookup k dp with
  | some m =>
    match alookup col m with
    | some (s :: _) => some s
    | _ => none
  | none => none

/-- `resolveColumn` from the resolver: unqualified names prefer derived
provenance in a single-item scope, then fall back to unique-across-scope
catalog search; `alias.column` resolves through the alias binding;
longer paths are taken verbatim as `schema.table.column`. -/
def resolveColumn (c : Ctx) (parts : List String) : Except String String :=
  match parts with
  | [col] =>
    let deriv : Option String :=
      match c.scope with
      | [(al, tbl)] =>
        match dpSrc c.dp al col with
        | some s => some s
        | none => if tbl ≠ "" then dpSrc c.dp tbl col else none
      | _ => none
    match deriv with
    | some s => .ok s
    | none =>
      let cands := (c.scope.filter (fun p => hasColumn c.cat p.2 col)).map (·.2)
      match cands with
      | [t] => .ok (t ++ "." ++ col)
      | _ =>
        match c.scope with
        | [(_, tbl)] => .ok (tbl ++ "." ++ col)
        | _ => .error ("ambiguous column " ++ col)
  | [al, col] =>
    match alookup al c.scope with
    | some tbl =>
      match dpSrc c.dp al col with
      | some s => .ok s
      | none =>
        match dpSrc c.dp tbl col with
        | some s => .ok s
        | none => .ok (tbl ++ "." ++ col)
    | none => .error ("alias " ++ al ++ " not found")
  | [] => .error "empty column reference"
  | p1 :: p2 :: p3 :: rest =>
    let parts := p1 :: p2 :: p3 :: rest
    .ok (String.intercalate "." parts.dropLast ++ "." ++ parts.getLastD "")

/-! ### Row serializer (part_011, `SerializeEditableRows`) -/

/-- Owner of an injected `_pk_*` column: base table and PK column. -/
structure pkAtom where
  baseTable : String
  pkCol : String
deriving DecidableEq, Repr

/-- A serialized cell: the opaque edit handle and the raw value. -/
structure EditableCell where
  editHandle : String
  value : String
deriving DecidableEq, Repr

/-- A serialized row, column name → cell. -/
abbrev EditableRow := List (String × EditableCell)

/-- `splitTableCol`: split `"table.col"` at the first dot, `("", "")` when
there is none. -/
def splitTableCol (s : String) : String × String :=
  match breakAt '.' s.data with
  | some (l, r) => (String.mk l, String.mk r)
  | none => ("", "")

/-- `originsForColumn`: exact label match in the provenance map first, else
a unique `.<col>` suffix match (first source only), else nothing. -/
def originsForColumn (col : String) (prov : Provenance) : List String :=
  match alookup col prov with
  | some (s :: srcs) => s :: srcs
  | _ =>
    let found := prov.filterMap (fun kv =>
      match kv.2 with
      | v0 :: _ => if strEndsWith kv.1 ("." ++ col) then some v0 else none
      | [] => none)
    match found with
    | [f] => [f]
    | _ => []

/-- Precomputed `_pk_*` column owners (`pkOwner` in
`SerializeEditableRows`): for each result column with the `_pk_` name
prefix, its `(baseTable, pkCol)` from the rewritten provenance. -/
def pkOwner (cols : List String) (provRewritten : Provenance) :
    List (String × pkAtom) :=
  cols.filterMap (fun c =>
    if strStartsWith c "_pk_" then
      match alookup c provRewritten with
      | some (s :: _) =>
        let p := splitTableCol s
        if p.1 ≠ "" ∧ p.2 ≠ "" then some (c, ⟨p.1, p.2⟩) else none
      | _ => none
    else none)

/-- Position of a column name in the result-column list (`indexOf`). -/
def indexOf (l : List String) (target : String) : Option Nat :=
  l.findIdx? (· = target)

/-- Ensure a base table's bucket exists (Go's nil-map initialization). -/
def map2Ensure (m : List (String × List (String × String))) (k : String) :
    List (String × List (String × String)) :=
  if (alookup k m).isSome then m else m ++ [(k, [])]

/-- Write into a base table's bucket. -/
def map2Upsert (m : List (String × List (String × String))) (k1 k2 v : String) :
    List (String × List (String × String)) :=
  match m with
  | [] => [(k1, [(k2, v)])]
  | (k, inner) :: rest =>
    if k = k1 then (k, upsert inner k2 v) :: rest
    else (k, inner) :: map2Upsert rest k1 k2 v

/-- `buildPKByBase`: bucket this row's PK values by owning base table,
walking the injection map. -/
def buildPKByBase (cols values : List String)
    (pkMapByAlias : List (String × List String))
    (owner : List (String × pkAtom)) :
    List (String × List (String × String)) :=
  pkMapByAlias.foldl (fun acc kv =>
    kv.2.foldl (fun acc pkColName =>
      match alookup pkColName owner with
      | none => acc
      | some meta =>
        let acc := map2Ensure acc meta.baseTable
        match indexOf cols pkColName with
        | some idx => map2Upsert acc meta.baseTable meta.pkCol (values.getD idx "")
        | none => acc) acc) []

/-- `extractOrderForBase`: deterministic PK column order for a base table,
walking the injection map and deduplicating (the `seen` set and the
`order` slice always hold the same elements, so one list models both). -/
def extractOrderForBase (base : String)
    (pkMapByAlias : List (String × List String)) (provRewritten : Provenance) :
    List String :=
  pkMapByAlias.foldl (fun order kv =>
    kv.2.foldl (fun order pkColName =>
      match alookup pkColName provRewritten with
      | some (s :: _) =>
        let p := splitTableCol s
        if p.1 = base ∧ p.2 ∉ order then order ++ [p.2] else order
      | _ => order) order) []

/-- `computeEditHandle`: route the column to a base table via the original
provenance's first source and encode that table's PK bucket with the schema
fixed to `"public"`.  A missing owner or empty bucket yields the empty
handle. -/
def computeEditHandle (col : String)
    (pkByBase : List (String × List (String × String)))
    (provOrig : Provenance) (pkMapByAlias : List (String × List String))
    (provRewritten : Provenance) : String :=
  match originsForColumn col provOrig with
  | [] => ""
  | s :: _ =>
    let bt := (splitTableCol s).1
    if bt = "" then ""
    else
      match alookup bt pkByBase with
      | none => ""
      | some vals =>
        if vals.isEmpty then ""
        else
          let order := extractOrderForBase bt pkMapByAlias provRewritten
          let order := if order.isEmpty then vals.map (·.1) else order
          let pkVals := order.map (fun k => (alookup k vals).getD "<nil>")
          EncodeHandle "public" bt order pkVals

/-- `SerializeEditableRows`: per row, bucket the PK values, then emit every
non-`_pk_` column as `{editHandle, value}` (scan/driver errors are not
modelled; `deref` is the identity on our value model). -/
def SerializeEditableRows (cols : List String) (rows : List (List String))
    (pkMapByAlias : List (String × List String))
    (provOrig provRewritten : Provenance) : List EditableRow :=
  let owner := pkOwner cols provRewritten
  rows.map (fun values =>
    let pkByBase := buildPKByBase cols values pkMapByAlias owner
    (cols.zip values).filterMap (fun cv =>
      if strStartsWith cv.1 "_pk_" then none
      else some (cv.1,
        ⟨computeEditHandle cv.1 pkByBase provOrig pkMapByAlias provRewritten,
         cv.2⟩)))

/-! ### Live queries, WAL consumer (`consumer.go`) -/

/-- Old/new key tuple of a change record. -/
structure Keys where
  keynames : List String
  keyvalues : List String
deriving DecidableEq, Repr

/-- One decoded change (`wal.Change`). -/
structure Change where
  schema : String
  table : String
  kind : String
  oldkeys : Keys
  newkeys : Keys
deriving DecidableEq, Repr

/-- A registered live query (`reactive.LiveQuery`, data fields only). -/
structure LiveQuery where
  id : String
  sql : String
  rewritten : String
  tables : List String
  pkCols : List (String × List String)
  provOrig : Provenance
  provRewritten : Provenance
  pkMapByAlias : List (String × List String)
deriving DecidableEq, Repr

/-- The key tuple the consumer uses: `newkeys` for inserts, `oldkeys`
otherwise. -/
def consumerKeys (ch : Change) : Keys :=
  if ch.kind = "insert" then ch.newkeys else ch.oldkeys

/-- The per-change key map `kv` (missing values become the zero value,
modelled as `""`). -/
def changeKV (ch : Change) : List (String × String) :=
  let keys := consumerKeys ch
  keys.keynames.mapIdx (fun i name => (name, keys.keyvalues.getD i ""))

/-- The fully qualified changed table. -/
def changeFQ (ch : Change) : String := ch.schema ++ "." ++ ch.table

/-- The `affected` map passed to `PartialRefresh`: a single entry for the
changed table. -/
def affectedOf (ch : Change) : List (String × List (String × String)) :=
  [(changeFQ ch, changeKV ch)]

/-- The partial refreshes `OnMessage` dispatches for one change: one per
registered live query whose `Tables` set contains the changed table. -/
def dispatchForChange (reg : List LiveQuery) (ch : Change) :
    List (LiveQuery × List (String × List (String × String))) :=
  (reg.filter (fun q => decide (changeFQ ch ∈ q.tables))).map
    (fun q => (q, affectedOf ch))

/-- All dispatches for one decoded envelope. -/
def OnMessage (reg : List LiveQuery) (env : List Change) :
    List (LiveQuery × List (String × List (String × String))) :=
  env.flatMap (dispatchForChange reg)

/-! ### Partial refresh (`refresh.go`) -/

/-- The suffix matches collected by `buildPKPredicate`, in loop order:
injected column names paired with the changed value whose key name
`_<baseKey>`-suffix-matches them. -/
def pkMatches (pkCols : List (String × List String))
    (affected : List (String × List (String × String))) :
    List (String × String) :=
  pkCols.flatMap (fun akv =>
    affected.flatMap (fun fkv =>
      akv.2.flatMap (fun injected =>
        fkv.2.filterMap (fun bkv =>
          if strEndsWith injected ("_" ++ bkv.1) then some (injected, bkv.2)
          else none))))

/-- `buildPKPredicate`: `WHERE inj1 = $1 OR inj2 = $2 OR …` over the
matches, or nothing when no injected column matches. -/
def buildPKPredicate (q : LiveQuery)
    (affected : List (String × List (String × String))) :
    Option (String × List String) :=
  let ms := pkMatches q.pkCols affected
  if ms.isEmpty then none
  else
    let parts := ms.mapIdx (fun i m => m.1 ++ " = $" ++ toString (i + 1))
    some ("WHERE " ++ String.intercalate " OR " parts, ms.map (·.2))

/-- A message pushed to a live query's subscribers. -/
inductive RefreshMsg
  | update (rows : List EditableRow)
  | error (e : String)
deriving DecidableEq, Repr

/-- `PartialRefresh`: no predicate → no message; otherwise run the wrapped
rewritten query (the database is an oracle returning result columns and
rows) and push exactly one `update` — or one `error` on a query failure. -/
def PartialRefresh (db : String → List String → Except String (List String × List (List String)))
    (q : LiveQuery) (affected : List (String × List (String × String))) :
    List RefreshMsg :=
  match buildPKPredicate q affected with
  | none => []
  | some (w, args) =>
    let sql := "SELECT * FROM (" ++ q.rewritten ++ ") __src " ++ w
    match db sql args with
    | .error e => [.error e]
    | .ok (cols, rows) =>
      [.update (SerializeEditableRows cols rows q.pkMapByAlias q.provOrig q.provRewritten)]

/-! ## Theorems

### Codec lemmas -/

theorem b64Index_b64Char : ∀ n, n < 64 → b64Index (b64Char n) = some n := by
  decide

theorem decodeB64_encodeB64 (bs : List Nat) (h : ∀ b ∈ bs, b < 256) :
    decodeB64Chunks (encodeB64Chunks bs) = some bs := by
  induction bs using encodeB64Chunks.induct with
  | case1 b1 b2 b3 rest ih =>
    have h1 : b1 < 256 := h b1 (by simp)
    have h2 : b2 < 256 := h b2 (by simp)
    have h3 : b3 < 256 := h b3 (by simp)
    have e1 := b64Index_b64Char (b1 / 4) (by omega)
    have e2 := b64Index_b64Char ((b1 % 4) * 16 + b2 / 16) (by omega)
    have e3 := b64Index_b64Char ((b2 % 16) * 4 + b3 / 64) (by omega)
    have e4 := b64Index_b64Char (b3 % 64) (by omega)
    have ih' := ih (fun b hb => h b (by simp [hb]))
    simp [encodeB64Chunks, decodeB64Chunks, e1, e2, e3, e4, ih']
    omega
  | case2 b1 b2 =>
    have h1 : b1 < 256 := h b1 (by simp)
    have h2 : b2 < 256 := h b2 (by simp)
    have e1 := b64Index_b64Char (b1 / 4) (by omega)
    have e2 := b64Index_b64Char ((b1 % 4) * 16 + b2 / 16) (by omega)
    have e3 := b64Index_b64Char ((b2 % 16) * 4) (by omega)
    simp [encodeB64Chunks, decodeB64Chunks, e1, e2, e3]
    omega
  | case3 b1 =>
    have h1 : b1 < 256 := h b1 (by simp)
    have e1 := b64Index_b64Char (b1 / 4) (by omega)
    have e2 := b64Index_b64Char ((b1 % 4) * 16) (by omega)
    simp [encodeB64Chunks, decodeB64Chunks, e1, e2]
    omega
  | case4 => rfl

theorem bytesToChars_strToBytes (s : String) :
    bytesToChars (strToBytes s) = s.data := by
  simp [bytesToChars, strToBytes, List.map_map, Function.comp_def,
    Char.ofNat_toNat]

theorem breakAt_append (sep : Char) (l r : List Char) (h : sep ∉ l) :
    breakAt sep (l ++ sep :: r) = some (l, r) := by
  induction l with
  | nil => simp [breakAt]
  | cons c cs ih =>
    have hc : ¬ c = sep := fun e => h (by simp [e])
    have h' : sep ∉ cs := fun m => h (by simp [m])
    simp [breakAt, hc, ih h']

theorem splitAll_of_not_mem (sep : Char) (l : List Char) (h : sep ∉ l) :
    splitAll sep l = [l] := by
  induction l with
  | nil => rfl
  | cons c cs ih =>
    have hc : ¬ c = sep := fun e => h (by simp [e])
    have h' : sep ∉ cs := fun m => h (by simp [m])
    simp [splitAll, hc, ih h']

theorem splitAll_append (sep : Char) (l r : List Char) (h : sep ∉ l) :
    splitAll sep (l ++ sep :: r) = l :: splitAll sep r := by
  induction l with
  | nil => simp [splitAll]
  | cons c cs ih =>
    have hc : ¬ c = sep := fun e => h (by simp [e])
    have h' : sep ∉ cs := fun m => h (by simp [m])
    simp only [List.cons_append, splitAll, hc, List.append_eq, if_false]
    rw [ih h']

theorem strMk_data (s : String) : String.mk s.data = s := rfl

theorem upsert_of_not_mem (m : List (String × String)) (k v : String)
    (h : k ∉ m.map Prod.fst) : upsert m k v = m ++ [(k, v)] := by
  induction m with
  | nil => rfl
  | cons p rest ih =>
    obtain ⟨k', v'⟩ := p
    have hk : ¬ k' = k := fun e => h (by simp [e])
    have h' : k ∉ rest.map Prod.fst := fun hm => h (by simp [hm])
    simp [upsert, hk, ih h']

theorem joinComma_data_cons (s : String) (rest : List String) (hr : rest ≠ []) :
    (joinComma (s :: rest)).data = s.data ++ ',' :: (joinComma rest).data := by
  cases rest with
  | nil => exact absurd rfl hr
  | cons t ts =>
    show (s ++ "," ++ joinComma (t :: ts)).data = _
    simp [String.data_append]

theorem splitAll_joinComma (pairs : List String)
    (h : ∀ p ∈ pairs, ',' ∉ p.data) (hne : pairs ≠ []) :
    splitAll ',' (joinComma pairs).data = pairs.map String.data := by
  induction pairs with
  | nil => exact absurd rfl hne
  | cons s rest ih =>
    cases rest with
    | nil =>
      show splitAll ',' (joinComma [s]).data = [s.data]
      exact splitAll_of_not_mem ',' s.data (h s (by simp))
    | cons t ts =>
      rw [joinComma_data_cons s (t :: ts) (by simp),
        splitAll_append ',' s.data _ (h s (by simp)),
        ih (fun p hp => h p (by simp [List.mem_cons] at hp ⊢; tauto)) (by simp)]
      rfl

theorem mem_zipWith {α β γ : Type} {f : α → β → γ} {l₁ : List α} {l₂ : List β}
    {x : γ} (h : x ∈ List.zipWith f l₁ l₂) : ∃ a ∈ l₁, ∃ b ∈ l₂, x = f a b := by
  induction l₁ generalizing l₂ with
  | nil => simp at h
  | cons a as ih =>
    cases l₂ with
    | nil => simp at h
    | cons b bs =>
      simp only [List.zipWith_cons_cons, List.mem_cons] at h
      rcases h with h | h
      · exact ⟨a, by simp, b, by simp, h⟩
      · obtain ⟨a', ha, b', hb, e⟩ := ih h
        exact ⟨a', by simp [ha], b', by simp [hb], e⟩

theorem foldl_decodeKVStep (cols vals : List String)
    (acc : List (String × String))
    (hc : ∀ s ∈ cols, '=' ∉ s.data ∧ trimChars s.data = s.data)
    (hv : ∀ v ∈ vals, trimChars v.data = v.data)
    (hnd : cols.Nodup)
    (hdisj : ∀ k ∈ cols, k ∉ acc.map Prod.fst) :
    ((List.zipWith (fun c v => c ++ "=" ++ v) cols vals).map String.data).foldl
      decodeKVStep acc = acc ++ cols.zip vals := by
  induction cols generalizing vals acc with
  | nil => simp
  | cons c cs ih =>
    cases vals with
    | nil => simp
    | cons v vs =>
      simp only [List.zipWith_cons_cons, List.map_cons, List.foldl_cons]
      have hdata : (c ++ "=" ++ v).data = c.data ++ '=' :: v.data := by
        simp [String.data_append]
      have hkv : decodeKVStep acc ((c ++ "=" ++ v).data) = acc ++ [(c, v)] := by
        rw [hdata]
        unfold decodeKVStep
        have hne : ¬ (c.data ++ '=' :: v.data = ([] : List Char)) := by simp
        rw [if_neg hne, breakAt_append '=' c.data v.data (hc c (by simp)).1]
        show upsert acc (String.mk (trimChars c.data)) (String.mk (trimChars v.data))
          = acc ++ [(c, v)]
        rw [(hc c (by simp)).2, hv v (by simp), strMk_data, strMk_data,
          upsert_of_not_mem _ _ _ (hdisj c (by simp))]
      rw [hkv, ih vs (acc ++ [(c, v)])
        (fun s hs => hc s (by simp [hs]))
        (fun w hw => hv w (by simp [hw]))
        (List.Nodup.of_cons hnd)
        (fun k hk => by
          have h1 : k ∉ acc.map Prod.fst := hdisj k (by simp [hk])
          have h2 : k ≠ c := fun e => (List.nodup_cons.mp hnd).1 (e ▸ hk)
          simp [h1, h2])]
      simp

/-- Claim C3 (amended): for schema and table free of `|` with a dot-free
schema, and distinct PK column names whose renderings (single-byte in the
byte model) are free of `|`/`=`/`,` and unchanged by whitespace trimming,
`DecodeHandle (EncodeHandle s t cols vals)` succeeds and returns exactly
`s`, `t` and the map sending each `cols[i]` to `vals[i]`; and an input that
is not a well-formed handle (undecodable base64, or decoded text without a
`|`, or a table path without a `.`) makes `DecodeHandle` return an error. -/
theorem DecodeHandle_EncodeHandle (schema table : String)
    (cols vals : List String)
    (hbytes : ∀ c ∈ (schema ++ "." ++ table ++ "|" ++
      joinComma (List.zipWith (fun c v => c ++ "=" ++ v) cols vals)).data,
      c.toNat < 256)
    (hdot : '.' ∉ schema.data) (hbarS : '|' ∉ schema.data)
    (hbarT : '|' ∉ table.data)
    (hcols : ∀ s ∈ cols, '=' ∉ s.data ∧ ',' ∉ s.data ∧ trimChars s.data = s.data)
    (hvals : ∀ v ∈ vals, ',' ∉ v.data ∧ trimChars v.data = v.data)
    (hnd : cols.Nodup) :
    DecodeHandle (EncodeHandle schema table cols vals) =
      .ok (schema, table, cols.zip vals) ∧
    (∀ h : String, decodeB64Chunks h.data = none →
      DecodeHandle h = .error "invalid base64") ∧
    (∀ (h : String) (bs : List Nat), decodeB64Chunks h.data = some bs →
      breakAt '|' (bytesToChars bs) = none →
      DecodeHandle h = .error "malformed handle") ∧
    (∀ (h : String) (bs : List Nat) (st kp : List Char),
      decodeB64Chunks h.data = some bs →
      breakAt '|' (bytesToChars bs) = some (st, kp) → breakAt '.' st = none →
      DecodeHandle h = .error "malformed table path") := by
  refine ⟨?_, ?_, ?_, ?_⟩
  · set kvPairs := List.zipWith (fun c v => c ++ "=" ++ v) cols vals with hkvdef
    set raw := schema ++ "." ++ table ++ "|" ++ joinComma kvPairs with hrawdef
    have hb : ∀ b ∈ strToBytes raw, b < 256 := by
      intro b hbm
      simp only [strToBytes, List.mem_map] at hbm
      obtain ⟨c, hcm, e⟩ := hbm
      exact e ▸ hbytes c hcm
    have hdec : decodeB64Chunks (EncodeHandle schema table cols vals).data =
        some (strToBytes raw) := decodeB64_encodeB64 _ hb
    have hchars : bytesToChars (strToBytes raw) = raw.data :=
      bytesToChars_strToBytes raw
    have hsplit : raw.data =
        (schema.data ++ '.' :: table.data) ++ '|' :: (joinComma kvPairs).data := by
      simp [hrawdef, String.data_append]
    have hbar : '|' ∉ schema.data ++ '.' :: table.data := by
      intro hm
      simp only [List.mem_append, List.mem_cons] at hm
      rcases hm with hm | hm | hm
      · exact hbarS hm
      · exact absurd hm (by decide)
      · exact hbarT hm
    have h1 : breakAt '|' raw.data =
        some (schema.data ++ '.' :: table.data, (joinComma kvPairs).data) := by
      rw [hsplit]; exact breakAt_append _ _ _ hbar
    have h2 : breakAt '.' (schema.data ++ '.' :: table.data) =
        some (schema.data, table.data) := breakAt_append _ _ _ hdot
    have hpk : (splitAll ',' (joinComma kvPairs).data).foldl decodeKVStep [] =
        cols.zip vals := by
      by_cases hkv : kvPairs = []
      · have hnil : cols = [] ∨ vals = [] := by
          rw [hkvdef] at hkv; exact List.zipWith_eq_nil_iff.mp hkv
        rw [hkv]
        rcases hnil with h | h <;> simp [h, joinComma, splitAll, decodeKVStep]
      · have hcomma : ∀ p ∈ kvPairs, ',' ∉ p.data := by
          intro p hp
          obtain ⟨c, hcm, v, hvm, e⟩ := mem_zipWith (hkvdef ▸ hp)
          subst e
          intro hmem
          simp [String.data_append, List.mem_append, (hcols c hcm).2.1,
            (hvals v hvm).1] at hmem
        rw [splitAll_joinComma kvPairs hcomma hkv, hkvdef]
        exact foldl_decodeKVStep cols vals []
          (fun s hs => ⟨(hcols s hs).1, (hcols s hs).2.2⟩)
          (fun v hv' => (hvals v hv').2) hnd (by simp)
    show DecodeHandle (EncodeHandle schema table cols vals) = _
    rw [show EncodeHandle schema table cols vals =
      String.mk (encodeB64Chunks (strToBytes raw)) from rfl] at hdec ⊢
    simp only [DecodeHandle, hdec, hchars, h1, h2, hpk, strMk_data]
  · intro h hnone
    simp only [DecodeHandle, hnone]
  · intro h bs hsome hbrk
    simp only [DecodeHandle, hsome, hbrk]
  · intro h bs st kp hsome hbrk hdot'
    simp only [DecodeHandle, hsome, hbrk, hdot']

/-- Witness for claim C3's amended theorem at a concrete handle:
`(public, actor, id=5)` round-trips. -/
theorem DecodeHandle_EncodeHandle_witness :
    DecodeHandle (EncodeHandle "public" "actor" ["id"] ["5"]) =
      Except.ok ("public", "actor", [("id", "5")]) :=
  (DecodeHandle_EncodeHandle "public" "actor" ["id"] ["5"]
    (by decide) (by decide) (by decide) (by decide) (by decide) (by decide)
    (by decide)).1

/-- Claim C3 counterexample: with a schema containing a dot (legal in the
claim as stated, which restricts only the column names and value
renderings), the round-trip fails — `DecodeHandle` splits the table path
at the first dot, returning schema `"a"` and table `"b.t"`. -/
theorem DecodeHandle_EncodeHandle_cex :
    DecodeHandle (EncodeHandle "a.b" "t" ["c"] ["1"]) ≠
      Except.ok ("a.b", "t", [("c", "1")]) := by
  simp [show DecodeHandle (EncodeHandle "a.b" "t" ["c"] ["1"]) =
    Except.ok ("a", "b.t", [("c", "1")]) from rfl]

/-! ### Non-select dispatch (claim C8) -/

/-- Claim C8: when the first top-level statement is not a select,
`RewriteSelectInjectPKs` returns the input text unchanged with an empty
alias map and no error, while `ResolveProvenance` rejects the same input
with the unsupported-statement error. -/
theorem nonSelect_rewrite_passthrough (cat : Catalog)
    (deparse : SelectStmt → String) (sql : String)
    (analyze : List FromEntry → SelectStmt → Except String Provenance) :
    RewriteSelectInjectPKs cat deparse sql (some .nonSelect) =
      .ok (sql, []) ∧
    ResolveProvenance analyze (some .nonSelect) =
      .error "only SELECT supported" :=
  ⟨rfl, rfl⟩

/-! ### Serializer claims (C9, C10) -/

/-- Claim C9: `computeEditHandle` either returns the empty handle or calls
`EncodeHandle` with the schema fixed to the literal `"public"` and the
table taken from the first provenance source of the column — regardless of
the base table's actual schema. -/
theorem computeEditHandle_schema_public (col : String)
    (pkByBase : List (String × List (String × String)))
    (provOrig : Provenance) (pkMapByAlias : List (String × List String))
    (provRewritten : Provenance) :
    computeEditHandle col pkByBase provOrig pkMapByAlias provRewritten = "" ∨
    ∃ (s : String) (rest : List String) (order pkVals : List String),
      originsForColumn col provOrig = s :: rest ∧
      computeEditHandle col pkByBase provOrig pkMapByAlias provRewritten =
        EncodeHandle "public" (splitTableCol s).1 order pkVals := by
  cases horig : originsForColumn col provOrig with
  | nil => left; simp [computeEditHandle, horig]
  | cons s rest =>
    by_cases hbt : (splitTableCol s).1 = ""
    · left; simp [computeEditHandle, horig, hbt]
    · cases hlk : alookup (splitTableCol s).1 pkByBase with
      | none => left; simp [computeEditHandle, horig, hbt, hlk]
      | some vals =>
        by_cases hv : vals.isEmpty
        · left; simp [computeEditHandle, horig, hbt, hlk, hv]
        · right
          have hres : computeEditHandle col pkByBase provOrig pkMapByAlias
              provRewritten =
              EncodeHandle "public" (splitTableCol s).1
                (if (extractOrderForBase (splitTableCol s).1 pkMapByAlias
                      provRewritten).isEmpty
                 then vals.map (·.1)
                 else extractOrderForBase (splitTableCol s).1 pkMapByAlias
                      provRewritten)
                ((if (extractOrderForBase (splitTableCol s).1 pkMapByAlias
                      provRewritten).isEmpty
                  then vals.map (·.1)
                  else extractOrderForBase (splitTableCol s).1 pkMapByAlias
                      provRewritten).map
                  (fun k => (alookup k vals).getD "<nil>")) := by
            simp [computeEditHandle, horig, hbt, hlk, hv]
          exact ⟨s, rest, _, _, rfl, hres⟩

/-- Claim C10: the row serializer suppresses every result column whose
name begins with `_pk_` — the criterion is only the name prefix, so a
user-authored column starting with `_pk_` is hidden too — and every
other column of the row is emitted. -/
theorem serializeEditableRows_hides_pk (cols : List String)
    (rows : List (List String)) (pkMapByAlias : List (String × List String))
    (provOrig provRewritten : Provenance) :
    (∀ row ∈ SerializeEditableRows cols rows pkMapByAlias provOrig provRewritten,
      ∀ p ∈ row, strStartsWith p.1 "_pk_" = false) ∧
    (∀ values ∈ rows,
      ∃ row ∈ SerializeEditableRows cols rows pkMapByAlias provOrig provRewritten,
        ∀ cv ∈ cols.zip values, strStartsWith cv.1 "_pk_" = false →
          cv.1 ∈ row.map Prod.fst) := by
  constructor
  · intro row hrow p hp
    simp only [SerializeEditableRows, List.mem_map] at hrow
    obtain ⟨values, _, hrv⟩ := hrow
    rw [← hrv] at hp
    simp only [List.mem_filterMap] at hp
    obtain ⟨cv, _, hcv⟩ := hp
    by_cases hpk : strStartsWith cv.1 "_pk_"
    · simp [hpk] at hcv
    · simp only [hpk, Bool.false_eq_true, if_false, Option.some.injEq] at hcv
      rw [← hcv]
      simpa using hpk
  · intro values hvals
    refine ⟨_, List.mem_map_of_mem _ hvals, ?_⟩
    intro cv hcv hnpk
    simp only [List.mem_map, List.mem_filterMap]
    exact ⟨(cv.1, ⟨computeEditHandle cv.1
        (buildPKByBase cols values pkMapByAlias (pkOwner cols provRewritten))
        provOrig pkMapByAlias provRewritten, cv.2⟩),
      ⟨cv, hcv, by simp [hnpk]⟩, rfl⟩

/-- Witness for claim C10 at a concrete result set: a user-aliased column
literally named `_pk_x` is suppressed alongside the injected one. -/
theorem serializeEditableRows_hides_pk_witness :
    strStartsWith ("name", EditableCell.mk "" "X").1 "_pk_" = false :=
  (serializeEditableRows_hides_pk ["name", "_pk_x", "_pk_actor_id"]
      [["X", "u", "5"]] [] [] []).1 [("name", EditableCell.mk "" "X")]
    (by decide) ("name", EditableCell.mk "" "X") (by decide)

/-! ### WAL consumer claim (C6) -/

/-- Claim C6: the consumer takes the PK tuple from `newkeys` exactly for
inserts and from `oldkeys` otherwise, and dispatches a partial refresh
exactly to those registered live queries whose referenced-tables set
contains `schema.table`; a live query that does not reference the changed
table is never dispatched for that change. -/
theorem onMessage_dispatch (reg : List LiveQuery) (ch : Change) :
    (ch.kind = "insert" → consumerKeys ch = ch.newkeys) ∧
    (ch.kind ≠ "insert" → consumerKeys ch = ch.oldkeys) ∧
    (∀ pr ∈ dispatchForChange reg ch,
      changeFQ ch ∈ pr.1.tables ∧ pr.2 = affectedOf ch) ∧
    (∀ q ∈ reg, changeFQ ch ∈ q.tables →
      (q, affectedOf ch) ∈ dispatchForChange reg ch) ∧
    (∀ q ∈ reg, changeFQ ch ∉ q.tables →
      ∀ aff, (q, aff) ∉ dispatchForChange reg ch) ∧
    (∀ (env : List Change) pr, pr ∈ OnMessage reg env →
      ∃ ch' ∈ env, pr ∈ dispatchForChange reg ch') := by
  refine ⟨?_, ?_, ?_, ?_, ?_, ?_⟩
  · intro h; simp [consumerKeys, h]
  · intro h; simp [consumerKeys, h]
  · intro pr hpr
    simp only [dispatchForChange, List.mem_map, List.mem_filter] at hpr
    obtain ⟨q, ⟨_, hq⟩, he⟩ := hpr
    rw [← he]
    exact ⟨by simpa using hq, rfl⟩
  · intro q hq ht
    simp only [dispatchForChange, List.mem_map]
    exact ⟨q, by simp [List.mem_filter, hq, ht], rfl⟩
  · intro q hq ht aff hmem
    simp only [dispatchForChange, List.mem_map, List.mem_filter] at hmem
    obtain ⟨q', ⟨_, hq'⟩, he⟩ := hmem
    have : q' = q := congrArg Prod.fst he
    rw [this] at hq'
    exact ht (by simpa using hq')
  · intro env pr hpr
    simpa [OnMessage, List.mem_flatMap] using hpr

/-- Witness for claim C6: with two live queries of which only the first
references `public.actor`, an update on `public.actor` is dispatched to
the first (with keys from `oldkeys`) and never to the second. -/
theorem onMessage_dispatch_witness :
    (LiveQuery.mk "q2" "" "" ["public.film"] [] [] [] [],
        affectedOf (Change.mk "public" "actor" "update"
          (Keys.mk ["id"] ["7"]) (Keys.mk [] []))) ∉
      dispatchForChange
        [LiveQuery.mk "q1" "" "" ["public.actor"] [] [] [] [],
         LiveQuery.mk "q2" "" "" ["public.film"] [] [] [] []]
        (Change.mk "public" "actor" "update"
          (Keys.mk ["id"] ["7"]) (Keys.mk [] [])) :=
  (onMessage_dispatch
      [LiveQuery.mk "q1" "" "" ["public.actor"] [] [] [] [],
       LiveQuery.mk "q2" "" "" ["public.film"] [] [] [] []]
      (Change.mk "public" "actor" "update"
        (Keys.mk ["id"] ["7"]) (Keys.mk [] []))).2.2.2.2.1
    (LiveQuery.mk "q2" "" "" ["public.film"] [] [] [] [])
    (by decide) (by decide) _

/-! ### Column resolution claim (C5) -/

/-- Claim C5: against a multi-item scope, an unqualified column resolves to
`table.col` when exactly one scope entry's catalog columns contain the
name, and otherwise (zero or several matching entries) fails with the
`ambiguous column <name>` error; and a query whose provenance resolution
fails produces no rewrite result, since `handleEditableQuery` resolves
before rewriting and propagates the error. -/
theorem resolveColumn_ambiguity (c : Ctx) (col : String)
    (hmulti : 2 ≤ c.scope.length) :
    (∀ t, (c.scope.filter (fun p => hasColumn c.cat p.2 col)).map (·.2) = [t] →
      resolveColumn c [col] = .ok (t ++ "." ++ col)) ∧
    ((c.scope.filter (fun p => hasColumn c.cat p.2 col)).length ≠ 1 →
      resolveColumn c [col] = .error ("ambiguous column " ++ col)) ∧
    (∀ (resolve : String → Except String Provenance)
       (rewrite : String → Except String (String × List (String × List String)))
       (sql e : String), resolve sql = .error e →
      handleEditableQuery resolve rewrite sql = .error e) := by
  obtain ⟨_ | ⟨p, _ | ⟨q, rest⟩⟩, dp, cat⟩ := c
  · simp at hmulti
  · simp at hmulti
  · refine ⟨?_, ?_, ?_⟩
    · intro t ht
      simp only [resolveColumn, ht]
    · intro hlen
      simp only [resolveColumn]
      generalize hc : ((p :: q :: rest).filter
          (fun pr => hasColumn cat pr.2 col)).map (·.2) = cands
      rcases cands with _ | ⟨a, _ | ⟨b, tl⟩⟩
      · rfl
      · exfalso
        apply hlen
        have := congrArg List.length hc
        simpa using this
      · rfl
    · intro resolve rewrite sql e he
      simp only [handleEditableQuery, he]
      rfl

/-- Witness for claim C5 on the S6 catalog (`actor`, `film`, both with an
`id` column, only `actor` with `name`): `name` resolves to `actor.name`,
`id` is rejected as ambiguous, and the failed pipeline yields the error. -/
theorem resolveColumn_ambiguity_witness :
    resolveColumn
        ⟨[("actor", "public.actor"), ("film", "public.film")], [],
          ⟨fun t => if t = "public.actor" then some ["id", "name"]
            else if t = "public.film" then some ["id", "title"] else none,
           fun _ => none⟩⟩ ["name"] = .ok ("public.actor" ++ "." ++ "name") ∧
    resolveColumn
        ⟨[("actor", "public.actor"), ("film", "public.film")], [],
          ⟨fun t => if t = "public.actor" then some ["id", "name"]
            else if t = "public.film" then some ["id", "title"] else none,
           fun _ => none⟩⟩ ["id"] = .error ("ambiguous column " ++ "id") ∧
    handleEditableQuery (fun _ => .error "ambiguous column id")
      (fun sql => .ok (sql, [])) "SELECT id FROM actor, film" =
      .error "ambiguous column id" := by
  refine ⟨?_, ?_, ?_⟩
  · exact (resolveColumn_ambiguity _ "name" (by decide)).1 "public.actor"
      (by decide)
  · exact (resolveColumn_ambiguity _ "id" (by decide)).2.1 (by decide)
  · exact (resolveColumn_ambiguity
      ⟨[("actor", "public.actor"), ("film", "public.film")], [],
        ⟨fun t => if t = "public.actor" then some ["id", "name"]
          else if t = "public.film" then some ["id", "title"] else none,
         fun _ => none⟩⟩ "id" (by decide)).2.2
      (fun _ => .error "ambiguous column id") (fun sql => .ok (sql, []))
      "SELECT id FROM actor, film" "ambiguous column id" rfl

/-! ### Partial-refresh claim (C7) -/

/-- Claim C7: when no injected `_pk_` column suffix-matches a changed key
name, `PartialRefresh` emits no message at all; when at least one matches
and the filtered re-run succeeds, it dispatches exactly one `update`
message, which carries the empty array when the re-run returns no rows. -/
theorem partialRefresh_messages
    (db : String → List String → Except String (List String × List (List String)))
    (q : LiveQuery) (affected : List (String × List (String × String))) :
    ((∃ a ∈ q.pkCols, ∃ f ∈ affected, ∃ inj ∈ a.2, ∃ kv ∈ f.2,
        strEndsWith inj ("_" ++ kv.1) = true) ↔
      pkMatches q.pkCols affected ≠ []) ∧
    (pkMatches q.pkCols affected = [] → PartialRefresh db q affected = []) ∧
    (pkMatches q.pkCols affected ≠ [] →
      ∃ w args, buildPKPredicate q affected = some (w, args)) ∧
    (∀ w args cols rows, buildPKPredicate q affected = some (w, args) →
      db ("SELECT * FROM (" ++ q.rewritten ++ ") __src " ++ w) args =
        .ok (cols, rows) →
      PartialRefresh db q affected =
        [.update (SerializeEditableRows cols rows q.pkMapByAlias
          q.provOrig q.provRewritten)]) ∧
    (∀ cols, SerializeEditableRows cols [] q.pkMapByAlias
        q.provOrig q.provRewritten = []) := by
  refine ⟨?_, ?_, ?_, ?_, ?_⟩
  · constructor
    · rintro ⟨a, ha, f, hf, inj, hinj, kv, hkv, hm⟩ hnil
      have : (inj, kv.2) ∈ pkMatches q.pkCols affected := by
        simp only [pkMatches, List.mem_flatMap, List.mem_filterMap]
        exact ⟨a, ha, f, hf, inj, hinj, kv, hkv, by simp [hm]⟩
      rw [hnil] at this
      simp at this
    · intro hne
      cases hm : pkMatches q.pkCols affected with
      | nil => exact absurd hm hne
      | cons m ms =>
        have : m ∈ pkMatches q.pkCols affected := by simp [hm]
        simp only [pkMatches, List.mem_flatMap, List.mem_filterMap] at this
        obtain ⟨a, ha, f, hf, inj, hinj, kv, hkv, hv⟩ := this
        refine ⟨a, ha, f, hf, inj, hinj, kv, hkv, ?_⟩
        by_cases h : strEndsWith inj ("_" ++ kv.1) = true
        · exact h
        · simp [h] at hv
  · intro hnil
    simp [PartialRefresh, buildPKPredicate, hnil]
  · intro hne
    have hb : (pkMatches q.pkCols affected).isEmpty = false := by
      cases hm : pkMatches q.pkCols affected
      · exact absurd hm hne
      · rfl
    refine ⟨"WHERE " ++ String.intercalate " OR "
        ((pkMatches q.pkCols affected).mapIdx
          (fun i m => m.1 ++ " = $" ++ toString (i + 1))),
      (pkMatches q.pkCols affected).map (·.2), ?_⟩
    simp only [buildPKPredicate, hb, Bool.false_eq_true, if_false]
  · intro w args cols rows hpred hdb
    simp [PartialRefresh, hpred, hdb]
  · intro cols
    simp [SerializeEditableRows]

/-- Witness for claim C7: one injected column `_pk_a_id` matches the
changed key `id`; with a database stub returning no rows, exactly one
`update` message with the empty array is dispatched. -/
theorem partialRefresh_messages_witness :
    PartialRefresh (fun _ _ => .ok (["name"], []))
        (LiveQuery.mk "q1" "" "SELECT name, a.id AS _pk_a_id FROM actor a"
          ["public.actor"] [("a", ["_pk_a_id"])] [] [] [("a", ["_pk_a_id"])])
        [("public.actor", [("id", "7")])] =
      [RefreshMsg.update []] := by
  have h := (partialRefresh_messages (fun _ _ => .ok (["name"], []))
    (LiveQuery.mk "q1" "" "SELECT name, a.id AS _pk_a_id FROM actor a"
      ["public.actor"] [("a", ["_pk_a_id"])] [] [] [("a", ["_pk_a_id"])])
    [("public.actor", [("id", "7")])]).2.2.2.1
    "WHERE _pk_a_id = $1" ["7"] ["name"] [] (by decide) rfl
  simpa using h

/-! ### Rewriter lemmas -/

theorem insertSorted_perm (le : α → α → Bool) (a : α) (l : List α) :
    (insertSorted le a l).Perm (a :: l) := by
  induction l with
  | nil => rfl
  | cons b bs ih =>
    by_cases h : le a b
    · simp [insertSorted, h]
    · simp only [insertSorted, h, Bool.false_eq_true, if_false]
      exact (ih.cons b).trans (List.Perm.swap a b bs)

theorem insertionSort_perm (le : α → α → Bool) (l : List α) :
    (insertionSort le l).Perm l := by
  induction l with
  | nil => rfl
  | cons a as ih =>
    exact (insertSorted_perm le a (insertionSort le as)).trans (ih.cons a)

theorem sortByAlias_perm (scope : List FromEntry) :
    (sortByAlias scope).Perm scope :=
  insertionSort_perm _ scope

theorem mem_sortByAlias {e : FromEntry} {scope : List FromEntry} :
    e ∈ sortByAlias scope ↔ e ∈ scope :=
  (sortByAlias_perm scope).mem_iff

/-- Claim C4: when a select has a non-empty GROUP BY list, the rewriter
appends to it one unaliased column reference per PK column of every
non-derived scope alias with catalog PKs (in alias-sorted order, catalog
PK order within an alias), and these are built by the same
`buildColRefForScope` the projection injection uses. -/
theorem injectPKsInSelect_groupBy (cat : Catalog) (scope : List FromEntry)
    (sel : SelectStmt) (hg : sel.groupClause ≠ []) :
    (injectPKsInSelect cat scope sel).1.groupClause =
      sel.groupClause ++ (groupRefsForScope cat scope).map GroupNode.colRef ∧
    (∀ e ∈ scope, e.isDerived = false → ∀ pks, cat.primaryKeys e.fq = some pks →
      ∀ pk ∈ pks,
        buildColRefForScope e.vis pk (baseTableCount scope) e.isExplicit ∈
          groupRefsForScope cat scope) ∧
    (∀ visAlias colName targetName cnt isExp,
      (makeResTargetForScope visAlias colName targetName cnt isExp).val =
        buildColRefForScope visAlias colName cnt isExp) := by
  refine ⟨?_, ?_, fun _ _ _ _ _ => rfl⟩
  · by_cases hs : scope.isEmpty
    · have : scope = [] := by simpa using hs
      subst this
      simp [injectPKsInSelect, groupRefsForScope, sortByAlias, insertionSort]
    · have hgb : sel.groupClause.isEmpty = false := by
        cases h : sel.groupClause
        · exact absurd h hg
        · rfl
      simp [injectPKsInSelect, hs, injectGroupClause, hgb]
  · intro e he hd pks hpks pk hpk
    have he' : e ∈ sortByAlias scope := mem_sortByAlias.mpr he
    simp only [groupRefsForScope, List.mem_flatMap]
    refine ⟨e, he', ?_⟩
    simp only [hd, Bool.false_eq_true, if_false, hpks]
    by_cases hemp : pks.isEmpty
    · have : pks = [] := by simpa using hemp
      rw [this] at hpk
      simp at hpk
    · simp only [hemp, Bool.false_eq_true, if_false]
      exact List.mem_map_of_mem _ hpk

/-- Witness for claim C4 on the S3 scenario (aliases `a` over
`public.actor` and `f` over `public.film`, both with PK `[id]`, and a
non-empty GROUP BY): the rewritten GROUP BY is the original list followed
by `a.id, f.id`. -/
theorem injectPKsInSelect_groupBy_witness :
    (injectPKsInSelect
        ⟨fun _ => none,
         fun t => if t = "public.actor" then some ["id"]
           else if t = "public.film" then some ["id"] else none⟩
        [⟨"a", "public.actor", true⟩, ⟨"f", "public.film", true⟩]
        ⟨[⟨"", ⟨["a", "name"]⟩⟩], [GroupNode.colRef ⟨["a", "name"]⟩]⟩).1.groupClause
      = [GroupNode.colRef ⟨["a", "name"]⟩] ++
        (groupRefsForScope
          ⟨fun _ => none,
           fun t => if t = "public.actor" then some ["id"]
             else if t = "public.film" then some ["id"] else none⟩
          [⟨"a", "public.actor", true⟩, ⟨"f", "public.film", true⟩]).map
          GroupNode.colRef ∧
    buildColRefForScope "a" "id" 2 true ∈
      groupRefsForScope
        ⟨fun _ => none,
         fun t => if t = "public.actor" then some ["id"]
           else if t = "public.film" then some ["id"] else none⟩
        [⟨"a", "public.actor", true⟩, ⟨"f", "public.film", true⟩] :=
  ⟨(injectPKsInSelect_groupBy _ _ _ (by decide)).1,
   (injectPKsInSelect_groupBy
      ⟨fun _ => none,
       fun t => if t = "public.actor" then some ["id"]
         else if t = "public.film" then some ["id"] else none⟩
      [⟨"a", "public.actor", true⟩, ⟨"f", "public.film", true⟩]
      ⟨[⟨"", ⟨["a", "name"]⟩⟩], [GroupNode.colRef ⟨["a", "name"]⟩]⟩
      (by decide)).2.1
     ⟨"a", "public.actor", true⟩ (by decide) (by decide) ["id"] (by decide)
     "id" (by decide)⟩

/-! ### Injection-fold lemmas (for claims C1 and C2) -/

theorem injectPK_extend (safeAlias vis : String) (cnt : Nat) (exp : Bool)
    (st : RewriteState) (pk : String) :
    ∃ tl ex,
      (injectPK safeAlias vis cnt exp st pk).targetList = st.targetList ++ tl ∧
      (injectPK safeAlias vis cnt exp st pk).existing = st.existing ++ ex := by
  by_cases h : mkPkName safeAlias pk ∈ st.existing
  · exact ⟨[], [], by simp [injectPK, h], by simp [injectPK, h]⟩
  · exact ⟨[makeResTargetForScope vis pk (mkPkName safeAlias pk) cnt exp],
      [mkPkName safeAlias pk], by simp [injectPK, h], by simp [injectPK, h]⟩

theorem foldl_extend {α : Type} {f : RewriteState → α → RewriteState}
    (hf : ∀ st a, ∃ tl ex, (f st a).targetList = st.targetList ++ tl ∧
      (f st a).existing = st.existing ++ ex) :
    ∀ (l : List α) (st : RewriteState), ∃ tl ex,
      (l.foldl f st).targetList = st.targetList ++ tl ∧
      (l.foldl f st).existing = st.existing ++ ex := by
  intro l
  induction l with
  | nil => exact fun st => ⟨[], [], by simp, by simp⟩
  | cons a as ih =>
    intro st
    obtain ⟨tl1, ex1, h1, h2⟩ := hf st a
    obtain ⟨tl2, ex2, h3, h4⟩ := ih (f st a)
    exact ⟨tl1 ++ tl2, ex1 ++ ex2, by simp [h3, h1], by simp [h4, h2]⟩

theorem injectAlias_extend (cat : Catalog) (cnt : Nat) (st : RewriteState)
    (e : FromEntry) :
    ∃ tl ex, (injectAlias cat cnt st e).targetList = st.targetList ++ tl ∧
      (injectAlias cat cnt st e).existing = st.existing ++ ex := by
  by_cases hd : e.isDerived
  · exact ⟨[], [], by simp [injectAlias, hd], by simp [injectAlias, hd]⟩
  · cases hp : cat.primaryKeys e.fq with
    | none =>
      exact ⟨[], [], by simp [injectAlias, hd, hp], by simp [injectAlias, hd, hp]⟩
    | some pks =>
      by_cases hemp : pks.isEmpty
      · exact ⟨[], [], by simp [injectAlias, hd, hp, hemp],
          by simp [injectAlias, hd, hp, hemp]⟩
      · have : injectAlias cat cnt st e =
            pks.foldl (injectPK (displayAlias e.vis e.fq e.isExplicit) e.vis cnt
              e.isExplicit) st := by
          simp [injectAlias, hd, hp, hemp]
        rw [this]
        exact foldl_extend (fun st pk => injectPK_extend _ _ _ _ st pk) pks st

theorem injectTargets_extend (cat : Catalog) (scope : List FromEntry)
    (targets : List ResTarget) :
    ∃ tl, (injectTargets cat scope targets).targetList = targets ++ tl := by
  obtain ⟨tl, ex, h1, _⟩ := foldl_extend
    (fun st e => injectAlias_extend cat (baseTableCount scope) st e)
    (sortByAlias scope) ⟨targets, initialExisting targets, []⟩
  exact ⟨tl, h1⟩

theorem foldl_pres {α : Type} {P : RewriteState → Prop}
    {f : RewriteState → α → RewriteState}
    (hf : ∀ st a, P st → P (f st a)) :
    ∀ (l : List α) (st : RewriteState), P st → P (l.foldl f st) := by
  intro l
  induction l with
  | nil => exact fun st h => h
  | cons a as ih => exact fun st h => ih (f st a) (hf st a h)

theorem injectPK_inv (tn safeAlias vis : String) (cnt : Nat) (exp : Bool)
    (st : RewriteState) (pk : String)
    (h : (tn ∈ st.existing ↔
        1 ≤ (st.targetList.map ResTarget.name).count tn) ∧
      (st.targetList.map ResTarget.name).count tn ≤ 1) :
    (tn ∈ (injectPK safeAlias vis cnt exp st pk).existing ↔
      1 ≤ ((injectPK safeAlias vis cnt exp st pk).targetList.map
        ResTarget.name).count tn) ∧
    ((injectPK safeAlias vis cnt exp st pk).targetList.map
      ResTarget.name).count tn ≤ 1 := by
  by_cases hm : mkPkName safeAlias pk ∈ st.existing
  · simpa [injectPK, hm] using h
  · have hstep : injectPK safeAlias vis cnt exp st pk =
        ⟨st.targetList ++ [makeResTargetForScope vis pk (mkPkName safeAlias pk)
          cnt exp], st.existing ++ [mkPkName safeAlias pk],
         addsAppend st.adds safeAlias (mkPkName safeAlias pk)⟩ := by
      simp [injectPK, hm]
    rw [hstep]
    by_cases he : mkPkName safeAlias pk = tn
    · subst he
      have hzero : (st.targetList.map ResTarget.name).count
          (mkPkName safeAlias pk) = 0 := by
        by_contra hnz
        exact hm (h.1.mpr (by omega))
      constructor
      · simp [makeResTargetForScope, List.count_append, hzero]
      · simp [makeResTargetForScope, List.count_append, hzero]
    · have hc1 : (([makeResTargetForScope vis pk (mkPkName safeAlias pk)
          cnt exp]).map ResTarget.name).count tn = 0 := by
        simp [makeResTargetForScope, List.count_singleton, he]
      constructor
      · simp only [List.map_append, List.count_append, hc1, Nat.add_zero]
        rw [show (st.existing ++ [mkPkName safeAlias pk] : List String) =
          st.existing ++ [mkPkName safeAlias pk] from rfl]
        constructor
        · intro hmem
          rcases List.mem_append.mp hmem with hmem | hmem
          · exact h.1.mp hmem
          · simp at hmem
            exact absurd hmem.symm he
        · intro hcnt
          exact List.mem_append_left _ (h.1.mpr hcnt)
      · simp only [List.map_append, List.count_append, hc1, Nat.add_zero]
        exact h.2

theorem injectAlias_inv (tn : String) (cat : Catalog) (cnt : Nat)
    (st : RewriteState) (e : FromEntry)
    (h : (tn ∈ st.existing ↔
        1 ≤ (st.targetList.map ResTarget.name).count tn) ∧
      (st.targetList.map ResTarget.name).count tn ≤ 1) :
    (tn ∈ (injectAlias cat cnt st e).existing ↔
      1 ≤ ((injectAlias cat cnt st e).targetList.map ResTarget.name).count tn) ∧
    ((injectAlias cat cnt st e).targetList.map ResTarget.name).count tn ≤ 1 := by
  by_cases hd : e.isDerived
  · simpa [injectAlias, hd] using h
  · cases hp : cat.primaryKeys e.fq with
    | none => simpa [injectAlias, hd, hp] using h
    | some pks =>
      by_cases hemp : pks.isEmpty
      · simpa [injectAlias, hd, hp, hemp] using h
      · have hstep : injectAlias cat cnt st e =
            pks.foldl (injectPK (displayAlias e.vis e.fq e.isExplicit) e.vis cnt
              e.isExplicit) st := by
          simp [injectAlias, hd, hp, hemp]
        rw [hstep]
        exact foldl_pres (fun st pk hst => injectPK_inv tn _ _ _ _ st pk hst)
          pks st h

theorem injectPK_mem (safeAlias vis : String) (cnt : Nat) (exp : Bool)
    (st : RewriteState) (pk : String) :
    mkPkName safeAlias pk ∈ (injectPK safeAlias vis cnt exp st pk).existing := by
  by_cases hm : mkPkName safeAlias pk ∈ st.existing
  · simp [injectPK, hm]
  · simp [injectPK, hm]

theorem pksFold_mem (safeAlias vis : String) (cnt : Nat) (exp : Bool) :
    ∀ (pks : List String) (st : RewriteState) (pk : String), pk ∈ pks →
      mkPkName safeAlias pk ∈
        ((pks.foldl (injectPK safeAlias vis cnt exp) st).existing) := by
  intro pks
  induction pks with
  | nil => simp
  | cons p ps ih =>
    intro st pk hpk
    rw [List.foldl_cons]
    rcases List.mem_cons.mp hpk with hh | hh
    · subst hh
      obtain ⟨_, ex, _, hex⟩ := foldl_extend
        (fun st a => injectPK_extend safeAlias vis cnt exp st a) ps
        (injectPK safeAlias vis cnt exp st pk)
      rw [hex]
      exact List.mem_append_left _ (injectPK_mem safeAlias vis cnt exp st pk)
    · exact ih _ pk hh

theorem injectAlias_mem (cat : Catalog) (cnt : Nat) (st : RewriteState)
    (e : FromEntry) (hd : e.isDerived = false) (pks : List String)
    (hp : cat.primaryKeys e.fq = some pks) (pk : String) (hpk : pk ∈ pks) :
    mkPkName (displayAlias e.vis e.fq e.isExplicit) pk ∈
      (injectAlias cat cnt st e).existing := by
  have hemp : pks.isEmpty = false := by
    cases pks
    · simp at hpk
    · rfl
  have hstep : injectAlias cat cnt st e =
      pks.foldl (injectPK (displayAlias e.vis e.fq e.isExplicit) e.vis cnt
        e.isExplicit) st := by
    simp [injectAlias, hd, hp, hemp]
  rw [hstep]
  exact pksFold_mem _ _ _ _ pks st pk hpk

theorem entriesFold_mem (cat : Catalog) (cnt : Nat) :
    ∀ (l : List FromEntry) (st : RewriteState) (e : FromEntry), e ∈ l →
      e.isDerived = false → ∀ pks, cat.primaryKeys e.fq = some pks →
      ∀ pk ∈ pks,
        mkPkName (displayAlias e.vis e.fq e.isExplicit) pk ∈
          ((l.foldl (injectAlias cat cnt) st).existing) := by
  intro l
  induction l with
  | nil => simp
  | cons a as ih =>
    intro st e he hd pks hp pk hpk
    rw [List.foldl_cons]
    rcases List.mem_cons.mp he with hh | hh
    · subst hh
      obtain ⟨_, ex, _, hex⟩ := foldl_extend
        (fun st x => injectAlias_extend cat cnt st x) as (injectAlias cat cnt st e)
      rw [hex]
      exact List.mem_append_left _ (injectAlias_mem cat cnt st e hd pks hp pk hpk)
    · exact ih _ e hh hd pks hp pk hpk

theorem injectTargets_mem (cat : Catalog) (scope : List FromEntry)
    (targets : List ResTarget) (e : FromEntry) (he : e ∈ scope)
    (hd : e.isDerived = false) (pks : List String)
    (hp : cat.primaryKeys e.fq = some pks) (pk : String) (hpk : pk ∈ pks) :
    mkPkName (displayAlias e.vis e.fq e.isExplicit) pk ∈
      (injectTargets cat scope targets).existing :=
  entriesFold_mem cat (baseTableCount scope) (sortByAlias scope) _ e
    (mem_sortByAlias.mpr he) hd pks hp pk hpk

theorem mkPkName_ne_empty (s p : String) : mkPkName s p ≠ "" := by
  simp [mkPkName, String.ext_iff, String.data_append]

theorem mem_initialExisting {tn : String} (htn : tn ≠ "")
    (targets : List ResTarget) :
    tn ∈ initialExisting targets ↔ tn ∈ targets.map ResTarget.name := by
  simp only [initialExisting, List.mem_map, List.mem_filter]
  constructor
  · rintro ⟨rt, ⟨hrt, _⟩, he⟩
    exact ⟨rt, hrt, he⟩
  · rintro ⟨rt, hrt, he⟩
    exact ⟨rt, ⟨hrt, by simp [he, htn]⟩, he⟩

theorem addsGet_addsAppend_same (adds : List (String × List String))
    (k v : String) :
    addsGet (addsAppend adds k v) k = addsGet adds k ++ [v] := by
  induction adds with
  | nil => simp [addsAppend, addsGet, alookup]
  | cons p rest ih =>
    obtain ⟨k', vs⟩ := p
    by_cases hk : k' = k
    · subst hk
      simp [addsAppend, addsGet, alookup]
    · simp [addsAppend, addsGet, alookup, hk, addsGet] at ih ⊢
      exact ih

theorem addsGet_addsAppend_other (adds : List (String × List String))
    (k v k' : String) (h : k ≠ k') :
    addsGet (addsAppend adds k v) k' = addsGet adds k' := by
  induction adds with
  | nil => simp [addsAppend, addsGet, alookup, h]
  | cons p rest ih =>
    obtain ⟨k'', vs⟩ := p
    by_cases hk : k'' = k
    · subst hk
      simp [addsAppend, addsGet, alookup, h]
    · by_cases hk2 : k'' = k'
      · subst hk2
        simp [addsAppend, addsGet, alookup, hk]
      · simp [addsAppend, addsGet, alookup, hk, hk2] at ih ⊢
        exact ih

theorem pksFold_adds (safeAlias vis : String) (cnt : Nat) (exp : Bool) :
    ∀ (pks : List String) (st : RewriteState), ∃ l tl,
      addsGet ((pks.foldl (injectPK safeAlias vis cnt exp) st).adds) safeAlias =
        addsGet st.adds safeAlias ++ l ∧
      (pks.foldl (injectPK safeAlias vis cnt exp) st).targetList =
        st.targetList ++ tl ∧
      l.Sublist (pks.map (mkPkName safeAlias)) ∧
      l.Sublist (tl.map ResTarget.name) := by
  intro pks
  induction pks with
  | nil => exact fun st => ⟨[], [], by simp, by simp, by simp, by simp⟩
  | cons p ps ih =>
    intro st
    rw [List.foldl_cons]
    by_cases hm : mkPkName safeAlias p ∈ st.existing
    · have hstep : injectPK safeAlias vis cnt exp st p = st := by
        simp [injectPK, hm]
      rw [hstep]
      obtain ⟨l, tl, h1, h2, h3, h4⟩ := ih st
      exact ⟨l, tl, h1, h2, h3.cons (mkPkName safeAlias p), h4⟩
    · have hstep : injectPK safeAlias vis cnt exp st p =
          ⟨st.targetList ++ [makeResTargetForScope vis p (mkPkName safeAlias p)
            cnt exp], st.existing ++ [mkPkName safeAlias p],
           addsAppend st.adds safeAlias (mkPkName safeAlias p)⟩ := by
        simp [injectPK, hm]
      rw [hstep]
      obtain ⟨l, tl, h1, h2, h3, h4⟩ := ih ⟨st.targetList ++
        [makeResTargetForScope vis p (mkPkName safeAlias p) cnt exp],
        st.existing ++ [mkPkName safeAlias p],
        addsAppend st.adds safeAlias (mkPkName safeAlias p)⟩
      refine ⟨mkPkName safeAlias p :: l,
        makeResTargetForScope vis p (mkPkName safeAlias p) cnt exp :: tl,
        ?_, ?_, h3.cons₂ (mkPkName safeAlias p), ?_⟩
      · rw [h1, addsGet_addsAppend_same]
        simp
      · rw [h2]
        simp
      · simpa [makeResTargetForScope] using
          h4.cons₂ (mkPkName safeAlias p)

theorem injectAlias_adds_self (cat : Catalog) (cnt : Nat) (st : RewriteState)
    (e : FromEntry) (hd : e.isDerived = false) (pks : List String)
    (hp : cat.primaryKeys e.fq = some pks) : ∃ l tl,
      addsGet ((injectAlias cat cnt st e).adds)
          (displayAlias e.vis e.fq e.isExplicit) =
        addsGet st.adds (displayAlias e.vis e.fq e.isExplicit) ++ l ∧
      (injectAlias cat cnt st e).targetList = st.targetList ++ tl ∧
      l.Sublist (pks.map (mkPkName (displayAlias e.vis e.fq e.isExplicit))) ∧
      l.Sublist (tl.map ResTarget.name) := by
  by_cases hemp : pks.isEmpty
  · have : pks = [] := by simpa using hemp
    subst this
    exact ⟨[], [], by simp [injectAlias, hd, hp], by simp [injectAlias, hd, hp],
      by simp, by simp⟩
  · have hstep : injectAlias cat cnt st e =
        pks.foldl (injectPK (displayAlias e.vis e.fq e.isExplicit) e.vis cnt
          e.isExplicit) st := by
      simp [injectAlias, hd, hp, hemp]
    rw [hstep]
    exact pksFold_adds _ _ _ _ pks st

theorem pksFold_adds_other (safeAlias vis : String) (cnt : Nat) (exp : Bool)
    (k : String) (hne : safeAlias ≠ k) :
    ∀ (pks : List String) (st : RewriteState),
      addsGet ((pks.foldl (injectPK safeAlias vis cnt exp) st).adds) k =
        addsGet st.adds k := by
  intro pks
  induction pks with
  | nil => simp
  | cons p ps ih =>
    intro st
    rw [List.foldl_cons]
    by_cases hm : mkPkName safeAlias p ∈ st.existing
    · rw [show injectPK safeAlias vis cnt exp st p = st by simp [injectPK, hm]]
      exact ih st
    · rw [ih _]
      have hstep : (injectPK safeAlias vis cnt exp st p).adds =
          addsAppend st.adds safeAlias (mkPkName safeAlias p) := by
        simp [injectPK, hm]
      rw [hstep, addsGet_addsAppend_other _ _ _ _ hne]

theorem injectAlias_adds_other (cat : Catalog) (cnt : Nat) (k : String)
    (st : RewriteState) (e : FromEntry)
    (hk : e.isDerived = false → displayAlias e.vis e.fq e.isExplicit ≠ k) :
    addsGet ((injectAlias cat cnt st e).adds) k = addsGet st.adds k := by
  by_cases hd : e.isDerived
  · simp [injectAlias, hd]
  · cases hp : cat.primaryKeys e.fq with
    | none => simp [injectAlias, hd, hp]
    | some pks =>
      by_cases hemp : pks.isEmpty
      · simp [injectAlias, hd, hp, hemp]
      · have hstep : injectAlias cat cnt st e =
            pks.foldl (injectPK (displayAlias e.vis e.fq e.isExplicit) e.vis cnt
              e.isExplicit) st := by
          simp [injectAlias, hd, hp, hemp]
        rw [hstep]
        exact pksFold_adds_other _ _ _ _ k
          (hk (by simpa using hd)) pks st

theorem entriesFold_adds_other (cat : Catalog) (cnt : Nat) (k : String) :
    ∀ (l : List FromEntry) (st : RewriteState),
      (∀ x ∈ l, x.isDerived = false →
        displayAlias x.vis x.fq x.isExplicit ≠ k) →
      addsGet ((l.foldl (injectAlias cat cnt) st).adds) k = addsGet st.adds k := by
  intro l
  induction l with
  | nil => simp
  | cons a as ih =>
    intro st hl
    rw [List.foldl_cons, ih _ (fun x hx => hl x (by simp [hx]))]
    exact injectAlias_adds_other cat cnt k st a (hl a (by simp))

theorem entriesFold_adds_split (cat : Catalog) (cnt : Nat)
    (l₁ l₂ : List FromEntry) (e : FromEntry) (st0 : RewriteState)
    (hd : e.isDerived = false) (pks : List String)
    (hp : cat.primaryKeys e.fq = some pks)
    (h1 : ∀ x ∈ l₁, x.isDerived = false →
      displayAlias x.vis x.fq x.isExplicit ≠ displayAlias e.vis e.fq e.isExplicit)
    (h2 : ∀ x ∈ l₂, x.isDerived = false →
      displayAlias x.vis x.fq x.isExplicit ≠
        displayAlias e.vis e.fq e.isExplicit) :
    ∃ l,
      addsGet (((l₁ ++ e :: l₂).foldl (injectAlias cat cnt) st0).adds)
          (displayAlias e.vis e.fq e.isExplicit) =
        addsGet st0.adds (displayAlias e.vis e.fq e.isExplicit) ++ l ∧
      l.Sublist (pks.map (mkPkName (displayAlias e.vis e.fq e.isExplicit))) ∧
      l.Sublist (((l₁ ++ e :: l₂).foldl (injectAlias cat cnt)
        st0).targetList.map ResTarget.name) := by
  rw [List.foldl_append, List.foldl_cons]
  obtain ⟨l, tl, ha1, ha2, ha3, ha4⟩ :=
    injectAlias_adds_self cat cnt (l₁.foldl (injectAlias cat cnt) st0) e hd pks hp
  have hother1 : addsGet ((l₁.foldl (injectAlias cat cnt) st0).adds)
      (displayAlias e.vis e.fq e.isExplicit) =
      addsGet st0.adds (displayAlias e.vis e.fq e.isExplicit) :=
    entriesFold_adds_other cat cnt _ l₁ st0 h1
  have hother2 : addsGet ((l₂.foldl (injectAlias cat cnt)
      (injectAlias cat cnt (l₁.foldl (injectAlias cat cnt) st0) e)).adds)
      (displayAlias e.vis e.fq e.isExplicit) =
      addsGet ((injectAlias cat cnt (l₁.foldl (injectAlias cat cnt) st0)
        e).adds) (displayAlias e.vis e.fq e.isExplicit) :=
    entriesFold_adds_other cat cnt _ l₂ _ h2
  obtain ⟨tl₂, ex₂, hb1, _⟩ := foldl_extend
    (fun st x => injectAlias_extend cat cnt st x) l₂
    (injectAlias cat cnt (l₁.foldl (injectAlias cat cnt) st0) e)
  refine ⟨l, ?_, ha3, ?_⟩
  · rw [hother2, ha1, hother1]
  · rw [hb1, ha2]
    have hsub : l.Sublist (tl.map ResTarget.name ++ tl₂.map ResTarget.name) :=
      ha4.trans (List.sublist_append_left _ _)
    have := hsub.trans (List.sublist_append_right
      (((l₁.foldl (injectAlias cat cnt) st0).targetList).map ResTarget.name) _)
    simpa using this

/-- Claim C1 (amended): for a scope alias over a base table with catalog
PKs, provided the user target list carries each injected name at most once
and no two scope aliases share a display alias, the rewritten projection
keeps all user targets first in their original order, contains exactly one
target named `_pk_<displayAlias>_<pkCol>` per PK column, and this alias's
recorded injections follow catalog PK order and appear in the projection. -/
theorem injectPKsInSelect_unique (cat : Catalog) (scope : List FromEntry)
    (sel : SelectStmt) (e : FromEntry) (pks : List String)
    (hvis : (scope.map FromEntry.vis).Nodup)
    (he : e ∈ scope) (hd : e.isDerived = false)
    (hp : cat.primaryKeys e.fq = some pks)
    (hsafe : ∀ e' ∈ scope, e' ≠ e → e'.isDerived = false →
      displayAlias e'.vis e'.fq e'.isExplicit ≠
        displayAlias e.vis e.fq e.isExplicit)
    (hcount : ∀ pk ∈ pks,
      (sel.targetList.map ResTarget.name).count
        (mkPkName (displayAlias e.vis e.fq e.isExplicit) pk) ≤ 1) :
    (∃ tail, (injectPKsInSelect cat scope sel).1.targetList =
      sel.targetList ++ tail) ∧
    (∀ pk ∈ pks,
      ((injectPKsInSelect cat scope sel).1.targetList.map ResTarget.name).count
        (mkPkName (displayAlias e.vis e.fq e.isExplicit) pk) = 1) ∧
    (addsGet (injectPKsInSelect cat scope sel).2
        (displayAlias e.vis e.fq e.isExplicit)).Sublist
      (pks.map (mkPkName (displayAlias e.vis e.fq e.isExplicit))) ∧
    (addsGet (injectPKsInSelect cat scope sel).2
        (displayAlias e.vis e.fq e.isExplicit)).Sublist
      ((injectPKsInSelect cat scope sel).1.targetList.map ResTarget.name) := by
  have hs : scope.isEmpty = false := by
    cases scope
    · simp at he
    · rfl
  have hred : injectPKsInSelect cat scope sel =
      (⟨(injectTargets cat scope sel.targetList).targetList,
        injectGroupClause cat scope sel.groupClause⟩,
       (injectTargets cat scope sel.targetList).adds) := by
    simp [injectPKsInSelect, hs]
  rw [hred]
  have hsafeName := displayAlias e.vis e.fq e.isExplicit
  -- decomposition of the sorted fold around `e`
  have hnodupScope : scope.Nodup := hvis.of_map FromEntry.vis
  have hnodS : (sortByAlias scope).Nodup :=
    (sortByAlias_perm scope).nodup_iff.mpr hnodupScope
  obtain ⟨l₁, l₂, hsplit⟩ := List.append_of_mem (mem_sortByAlias.mpr he)
  have hnotmem : e ∉ l₁ ++ l₂ := by
    have hcons : (e :: (l₁ ++ l₂)).Nodup := by
      rw [hsplit] at hnodS
      exact (List.perm_middle.nodup_iff).mp hnodS
    exact (List.nodup_cons.mp hcons).1
  have hinscope : ∀ x, x ∈ l₁ ∨ x ∈ l₂ → x ∈ scope := by
    intro x hx
    apply mem_sortByAlias.mp
    rw [hsplit]
    rcases hx with hx | hx
    · exact List.mem_append_left _ hx
    · exact List.mem_append_right _ (by simp [hx])
  have hxsafe : ∀ x, x ∈ l₁ ∨ x ∈ l₂ → x.isDerived = false →
      displayAlias x.vis x.fq x.isExplicit ≠
        displayAlias e.vis e.fq e.isExplicit := by
    intro x hx hxd
    refine hsafe x (hinscope x hx) ?_ hxd
    intro hxe
    subst hxe
    rcases hx with hx | hx
    · exact hnotmem (List.mem_append_left _ hx)
    · exact hnotmem (List.mem_append_right _ hx)
  have hfoldsplit : injectTargets cat scope sel.targetList =
      (l₁ ++ e :: l₂).foldl (injectAlias cat (baseTableCount scope))
        ⟨sel.targetList, initialExisting sel.targetList, []⟩ := by
    rw [injectTargets, hsplit]
  refine ⟨injectTargets_extend cat scope sel.targetList, ?_, ?_⟩
  · -- exactly-one count
    intro pk hpk
    set tn := mkPkName (displayAlias e.vis e.fq e.isExplicit) pk with htn
    show ((injectTargets cat scope
      sel.targetList).targetList.map ResTarget.name).count tn = 1
    have htnne : tn ≠ "" := mkPkName_ne_empty _ _
    have hinit : (tn ∈ initialExisting sel.targetList ↔
        1 ≤ (sel.targetList.map ResTarget.name).count tn) ∧
        (sel.targetList.map ResTarget.name).count tn ≤ 1 := by
      refine ⟨?_, hcount pk hpk⟩
      rw [mem_initialExisting htnne]
      exact List.count_pos_iff.symm
    have hfin : (tn ∈ (injectTargets cat scope sel.targetList).existing ↔
        1 ≤ ((injectTargets cat scope
          sel.targetList).targetList.map ResTarget.name).count tn) ∧
        ((injectTargets cat scope
          sel.targetList).targetList.map ResTarget.name).count tn ≤ 1 :=
      foldl_pres
        (P := fun st => (tn ∈ st.existing ↔
          1 ≤ (st.targetList.map ResTarget.name).count tn) ∧
          (st.targetList.map ResTarget.name).count tn ≤ 1)
        (fun st a hst => injectAlias_inv tn cat (baseTableCount scope) st a hst)
        (sortByAlias scope) ⟨sel.targetList, initialExisting sel.targetList, []⟩
        hinit
    have hmem := injectTargets_mem cat scope sel.targetList e he hd pks hp pk hpk
    have h1 := hfin.1.mp hmem
    have h2 := hfin.2
    omega
  · -- the adds entry: catalog PK order and presence in the projection
    obtain ⟨l, hg1, hg2, hg3⟩ := entriesFold_adds_split cat (baseTableCount scope)
      l₁ l₂ e ⟨sel.targetList, initialExisting sel.targetList, []⟩ hd pks hp
      (fun x hx hxd => hxsafe x (Or.inl hx) hxd)
      (fun x hx hxd => hxsafe x (Or.inr hx) hxd)
    rw [← hfoldsplit] at hg1 hg3
    have hget : addsGet (injectTargets cat scope sel.targetList).adds
        (displayAlias e.vis e.fq e.isExplicit) = l := by
      rw [hg1]; rfl
    rw [hget]
    exact ⟨hg2, hg3⟩

/-- Claim C1 counterexample: the query
`SELECT 1 AS _pk_actor_id, 2 AS _pk_actor_id FROM actor` is a legal select
(duplicate output aliases are allowed), but after the rewrite the
projection carries TWO targets named `_pk_actor_id` — the injection is
skipped on collision, and both user targets remain — refuting the
claim's "exactly one target named `_pk_<displayAlias>_<pkCol>`". -/
theorem injectPKsInSelect_unique_cex :
    (((injectPKsInSelect
        ⟨fun _ => none,
         fun t => if t = "public.actor" then some ["id"] else none⟩
        [⟨"actor", "public.actor", false⟩]
        ⟨[⟨"_pk_actor_id", ⟨["1"]⟩⟩, ⟨"_pk_actor_id", ⟨["2"]⟩⟩],
         []⟩).1.targetList).map ResTarget.name).count "_pk_actor_id" = 2 := by
  decide

/-- Witness for claim C1's amended theorem on the S2 scope (aliases `a`
and `f`, PK `id` each): the rewritten projection carries exactly one
`_pk_a_id`. -/
theorem injectPKsInSelect_unique_witness :
    (((injectPKsInSelect
        ⟨fun _ => none,
         fun t => if t = "public.actor" then some ["id"]
           else if t = "public.film" then some ["id"] else none⟩
        [⟨"a", "public.actor", true⟩, ⟨"f", "public.film", true⟩]
        ⟨[⟨"", ⟨["a", "name"]⟩⟩], []⟩).1.targetList).map ResTarget.name).count
      (mkPkName (displayAlias "a" "public.actor" true) "id") = 1 :=
  (injectPKsInSelect_unique
      ⟨fun _ => none,
       fun t => if t = "public.actor" then some ["id"]
         else if t = "public.film" then some ["id"] else none⟩
      [⟨"a", "public.actor", true⟩, ⟨"f", "public.film", true⟩]
      ⟨[⟨"", ⟨["a", "name"]⟩⟩], []⟩ ⟨"a", "public.actor", true⟩ ["id"]
      (by decide) (by decide) (by decide) (by decide) (by decide)
      (by decide)).2.1 "id" (by decide)

/-! ### Idempotence machinery (claim C2) -/

theorem initialExisting_append (a b : List ResTarget) :
    initialExisting (a ++ b) = initialExisting a ++ initialExisting b := by
  simp [initialExisting, List.filter_append]

theorem injectPK_existing_initial (safeAlias vis : String) (cnt : Nat)
    (exp : Bool) (st : RewriteState) (pk : String)
    (h : st.existing = initialExisting st.targetList) :
    (injectPK safeAlias vis cnt exp st pk).existing =
      initialExisting (injectPK safeAlias vis cnt exp st pk).targetList := by
  by_cases hm : mkPkName safeAlias pk ∈ st.existing
  · simpa [injectPK, hm] using h
  · have hone : initialExisting [makeResTargetForScope vis pk
        (mkPkName safeAlias pk) cnt exp] = [mkPkName safeAlias pk] := by
      simp [initialExisting, makeResTargetForScope, mkPkName_ne_empty]
    have hstep : injectPK safeAlias vis cnt exp st pk =
        ⟨st.targetList ++ [makeResTargetForScope vis pk (mkPkName safeAlias pk)
          cnt exp], st.existing ++ [mkPkName safeAlias pk],
         addsAppend st.adds safeAlias (mkPkName safeAlias pk)⟩ := by
      simp [injectPK, hm]
    rw [hstep]
    simp [initialExisting_append, h, hone]

theorem injectAlias_existing_initial (cat : Catalog) (cnt : Nat)
    (st : RewriteState) (e : FromEntry)
    (h : st.existing = initialExisting st.targetList) :
    (injectAlias cat cnt st e).existing =
      initialExisting (injectAlias cat cnt st e).targetList := by
  by_cases hd : e.isDerived
  · simpa [injectAlias, hd] using h
  · cases hp : cat.primaryKeys e.fq with
    | none => simpa [injectAlias, hd, hp] using h
    | some pks =>
      by_cases hemp : pks.isEmpty
      · simpa [injectAlias, hd, hp, hemp] using h
      · have hstep : injectAlias cat cnt st e =
            pks.foldl (injectPK (displayAlias e.vis e.fq e.isExplicit) e.vis cnt
              e.isExplicit) st := by
          simp [injectAlias, hd, hp, hemp]
        rw [hstep]
        exact foldl_pres
          (P := fun st => st.existing = initialExisting st.targetList)
          (fun st pk hst => injectPK_existing_initial _ _ _ _ st pk hst)
          pks st h

theorem injectTargets_existing_initial (cat : Catalog) (scope : List FromEntry)
    (targets : List ResTarget) :
    (injectTargets cat scope targets).existing =
      initialExisting (injectTargets cat scope targets).targetList :=
  foldl_pres (P := fun st => st.existing = initialExisting st.targetList)
    (fun st e hst => injectAlias_existing_initial cat (baseTableCount scope)
      st e hst)
    (sortByAlias scope) ⟨targets, initialExisting targets, []⟩ rfl

theorem pksFold_noop (safeAlias vis : String) (cnt : Nat) (exp : Bool) :
    ∀ (pks : List String) (st : RewriteState),
      (∀ pk ∈ pks, mkPkName safeAlias pk ∈ st.existing) →
      pks.foldl (injectPK safeAlias vis cnt exp) st = st := by
  intro pks
  induction pks with
  | nil => simp
  | cons p ps ih =>
    intro st hall
    rw [List.foldl_cons,
      show injectPK safeAlias vis cnt exp st p = st by
        simp [injectPK, hall p (by simp)]]
    exact ih st (fun pk hpk => hall pk (by simp [hpk]))

theorem injectAlias_noop (cat : Catalog) (cnt : Nat) (st : RewriteState)
    (e : FromEntry)
    (h : e.isDerived = false → ∀ pks, cat.primaryKeys e.fq = some pks →
      ∀ pk ∈ pks,
        mkPkName (displayAlias e.vis e.fq e.isExplicit) pk ∈ st.existing) :
    injectAlias cat cnt st e = st := by
  by_cases hd : e.isDerived
  · simp [injectAlias, hd]
  · cases hp : cat.primaryKeys e.fq with
    | none => simp [injectAlias, hd, hp]
    | some pks =>
      by_cases hemp : pks.isEmpty
      · simp [injectAlias, hd, hp, hemp]
      · have hstep : injectAlias cat cnt st e =
            pks.foldl (injectPK (displayAlias e.vis e.fq e.isExplicit) e.vis cnt
              e.isExplicit) st := by
          simp [injectAlias, hd, hp, hemp]
        rw [hstep]
        exact pksFold_noop _ _ _ _ pks st (h (by simpa using hd) pks hp)

theorem entriesFold_noop (cat : Catalog) (cnt : Nat) :
    ∀ (l : List FromEntry) (st : RewriteState),
      (∀ x ∈ l, x.isDerived = false → ∀ pks,
        cat.primaryKeys x.fq = some pks → ∀ pk ∈ pks,
          mkPkName (displayAlias x.vis x.fq x.isExplicit) pk ∈ st.existing) →
      l.foldl (injectAlias cat cnt) st = st := by
  intro l
  induction l with
  | nil => simp
  | cons a as ih =>
    intro st hall
    rw [List.foldl_cons,
      injectAlias_noop cat cnt st a (fun hd pks hp => hall a (by simp) hd pks hp)]
    exact ih st (fun x hx => hall x (by simp [hx]))

/-- Claim C2: applying the per-select injection to its own output changes
nothing — the second run's target list equals the first run's, and the
second run records no injected columns at all, because every injected
target name already exists in the rewritten projection. -/
theorem injectPKsInSelect_idempotent (cat : Catalog) (scope : List FromEntry)
    (sel : SelectStmt) :
    (injectPKsInSelect cat scope
      (injectPKsInSelect cat scope sel).1).1.targetList =
      (injectPKsInSelect cat scope sel).1.targetList ∧
    (injectPKsInSelect cat scope (injectPKsInSelect cat scope sel).1).2 = [] := by
  cases hs : scope.isEmpty with
  | true => simp [injectPKsInSelect, hs]
  | false =>
    have hred : ∀ s : SelectStmt, injectPKsInSelect cat scope s =
        (⟨(injectTargets cat scope s.targetList).targetList,
          injectGroupClause cat scope s.groupClause⟩,
         (injectTargets cat scope s.targetList).adds) := by
      intro s
      simp [injectPKsInSelect, hs]
    rw [hred sel, hred]
    have hEx : (injectTargets cat scope sel.targetList).existing =
        initialExisting (injectTargets cat scope sel.targetList).targetList :=
      injectTargets_existing_initial cat scope sel.targetList
    have hall : ∀ x ∈ sortByAlias scope, x.isDerived = false → ∀ pks,
        cat.primaryKeys x.fq = some pks → ∀ pk ∈ pks,
          mkPkName (displayAlias x.vis x.fq x.isExplicit) pk ∈
            initialExisting
              (injectTargets cat scope sel.targetList).targetList := by
      intro x hx hxd pks hp pk hpk
      rw [← hEx]
      exact injectTargets_mem cat scope sel.targetList x
        (mem_sortByAlias.mp hx) hxd pks hp pk hpk
    have hnoop : injectTargets cat scope
        (injectTargets cat scope sel.targetList).targetList =
        ⟨(injectTargets cat scope sel.targetList).targetList,
         initialExisting (injectTargets cat scope sel.targetList).targetList,
         []⟩ := by
      rw [injectTargets]
      exact entriesFold_noop cat (baseTableCount scope) (sortByAlias scope) _
        hall
    constructor
    · simp only [hnoop]
    · simp only [hnoop]

end PSV
